import Mathlib

/-!
Verification of the clique-graph treewidth heuristic repository.

The development shallowly embeds the Rust sources:
* `src/treewidth_heuristic/src/clique_graph_edge_weight_heuristics.rs`
  (the six edge-weight heuristics over bags),
* `src/treewidth_heuristic/src/generate_partial_k_tree.rs`
  (complete graph, k-tree extension, random partialisation, guarantee loop),
* `src/src/fill_bags_along_paths.rs`
  (the pairwise path filler and the structural LCA filler).

Bags are `Finset Nat` (petgraph `NodeIndex` values are natural numbers,
`HashSet` is an unordered set).  Randomness-consuming primitives
(`choose_multiple` on either the caller rng or `rand::thread_rng()`) are
modelled by passing the drawn elements in explicitly; a `Valid…` predicate
states exactly which draws the primitive can produce.  Rust panics
(`expect`, `assert!`, out-of-range accesses) are modelled by `Option`
results, `none` meaning the program aborts.
-/

/-! ## Edge-weight heuristics (clique_graph_edge_weight_heuristics.rs) -/
/-- Embedding of `neutral_heuristic`: always `0`. -/
def neutral_heuristic (_first_vertex _second_vertex : Finset Nat) : Int := 0

/-- Embedding of `negative_intersection_heuristic`: the Rust iterates
`first_vertex.intersection(second_vertex)`, collects into a set, takes the
negated length. -/
def negative_intersection_heuristic (first_vertex second_vertex : Finset Nat) : Int :=
  -(((first_vertex.filter (fun x => x ∈ second_vertex)).card : Int))

/-- Embedding of `positive_intersection_heuristic`. -/
def positive_intersection_heuristic (first_vertex second_vertex : Finset Nat) : Int :=
  ((first_vertex.filter (fun x => x ∈ second_vertex)).card : Int)

/-- Embedding of `disjoint_union_heuristic`: `len + len`. -/
def disjoint_union_heuristic (first_vertex second_vertex : Finset Nat) : Int :=
  ((first_vertex.card + second_vertex.card : Nat) : Int)

/-- Embedding of `union_heuristic`: the Rust iterates
`first_vertex.union(second_vertex)` (elements of the first set, then the
elements of the second not in the first), collects into a set, takes the
length. -/
def union_heuristic (first_vertex second_vertex : Finset Nat) : Int :=
  ((first_vertex ∪ second_vertex.filter (fun x => x ∉ first_vertex)).card : Int)

/-- Embedding of `least_difference_heuristic`: the Rust iterates
`first_vertex.symmetric_difference(second_vertex)` (elements of the first
set not in the second, then elements of the second not in the first),
collects into a set, takes the length. -/
def least_difference_heuristic (first_vertex second_vertex : Finset Nat) : Int :=
  ((first_vertex.filter (fun x => x ∉ second_vertex) ∪
    second_vertex.filter (fun x => x ∉ first_vertex)).card : Int)

/-! ## Partial k-tree generator (generate_partial_k_tree.rs) -/
/-- A petgraph `Graph<i32, i32, Undirected>` as the generator observes it:
node indices are `0 .. node_count - 1` in insertion order, and the edge
list is kept in insertion order (edge indices are list positions).  Node
and edge weights are always `0` in this file of the source, so they are
not modelled. -/
structure KGraph where
  node_count : Nat
  edges : List (Nat × Nat)
deriving DecidableEq

/-- Embedding of `generate_complete_graph k`: nodes `0 .. k-1` and an edge
`(i, j)` for every `i < j < k`, added in the source's loop order. -/
def generate_complete_graph (k : Nat) : KGraph :=
  { node_count := k
    edges := (List.range k).flatMap
      (fun i => ((List.range k).filter (fun j => i < j)).map (fun j => (i, j))) }

/-- One iteration of the k-tree extension loop: `add_node` returns the next
index `g.node_count`, and one edge `(new_vertex, old)` is added per chosen
vertex, in draw order. -/
def addNewVertex (g : KGraph) (chosen : List Nat) : KGraph :=
  let new_vertex := g.node_count
  { node_count := g.node_count + 1
    edges := g.edges ++ chosen.map (fun old_vertex_index => (new_vertex, old_vertex_index)) }

/-- Embedding of `generate_k_tree k n`.  `attach` holds, for each of the
`n - k` added vertices, the list that `node_identifiers().choose_multiple(
&mut rand::thread_rng(), k)` returned.  Note that in the source the new
vertex is added *before* the draw, so the population of draw `i` is
`{0, …, k + i}` — it contains the new vertex itself. -/
def generate_k_tree (k n : Nat) (attach : List (List Nat)) : Option KGraph :=
  if k > n then
    none
  else
    some ((List.range (n - k)).foldl
      (fun g i => addNewVertex g (attach.getD i []))
      (generate_complete_graph k))

/-- Which lists the `i`-th thread-rng draw of the k-tree extension can
produce: `k` distinct node indices of the current graph, whose nodes at
that moment are `0 … k + i` (the new vertex included). -/
def ValidAttach (k n : Nat) (attach : List (List Nat)) : Prop :=
  attach.length = n - k ∧
    ∀ i < n - k, (attach.getD i []).Nodup ∧ (attach.getD i []).length = k ∧
      ∀ x ∈ attach.getD i [], x < k + i + 1

instance (k n : Nat) (attach : List (List Nat)) : Decidable (ValidAttach k n attach) := by
  unfold ValidAttach
  infer_instance

/-- The edge count formula `k * (k - 1) / 2 + k * (n - k)` computed by
`generate_partial_k_tree` (natural subtraction: the `k = 0` case wraps to
`0` exactly as the release-mode Rust does). -/
def number_of_edges_k_tree (k n : Nat) : Nat :=
  k * (k - 1) / 2 + k * (n - k)

/-- The removal count `((number_of_edges * p) / 100).min(number_of_edges)`. -/
def number_of_edges_to_be_removed (k n p : Nat) : Nat :=
  min (number_of_edges_k_tree k n * p / 100) (number_of_edges_k_tree k n)

/-- Embedding of petgraph's `Graph::remove_edge` on the edge list: the edge
at index `i` is removed by moving the *last* edge into slot `i` (so the
last edge index is invalidated); an index out of range returns `None` and
removes nothing. -/
def swapRemoveEdge (es : List (Nat × Nat)) (i : Nat) : List (Nat × Nat) :=
  if i < es.length then (es.set i (es.getLastD (0, 0))).dropLast else es

/-- Embedding of `generate_partial_k_tree k n p rng`.  `removal` is the
list of edge indices that `edge_indices().choose_multiple(rng,
number_of_edges_to_be_removed)` returned (drawn from the caller-provided
rng, collected *before* any removal); the edges are then removed one at a
time with `remove_edge`. -/
def generate_partial_k_tree (k n p : Nat) (attach : List (List Nat))
    (removal : List Nat) : Option KGraph :=
  match generate_k_tree k n attach with
  | none => none
  | some graph => some { graph with
      edges := (removal.take (number_of_edges_to_be_removed k n p)).foldl
        swapRemoveEdge graph.edges }

/-- Which lists the caller-rng draw of the partialisation step can produce:
distinct valid edge indices of the freshly built k-tree, `min` of the
requested count and the population size many of them, in any order. -/
def ValidRemoval (k n p : Nat) (es : List (Nat × Nat)) (removal : List Nat) : Prop :=
  removal.Nodup ∧ (∀ i ∈ removal, i < es.length) ∧
    removal.length = min (number_of_edges_to_be_removed k n p) es.length

instance (k n p : Nat) (es : List (Nat × Nat)) (removal : List Nat) :
    Decidable (ValidRemoval k n p es removal) := by
  unfold ValidRemoval
  infer_instance

/-- Modelled from the spec: the source of `maximum_minimum_degree` (§4.H of
the spec) is not among the repository files under src/, only its callers
are.  Spec words: "repeatedly select the vertex of minimum degree in the
current subgraph, record its degree, remove it.  The result is `max` over
the recorded values."  Degree of `v` in the subgraph induced on `verts`. -/
def degreeIn (edges : List (Nat × Nat)) (verts : List Nat) (v : Nat) : Nat :=
  (edges.filter (fun e =>
    (e.1 = v ∧ e.2 ∈ verts) ∨ (e.2 = v ∧ e.1 ∈ verts))).length

/-- Modelled from the spec: a vertex of minimum degree in the subgraph
induced on `verts` (the first one found). -/
def minDegreeVertex (edges : List (Nat × Nat)) (verts : List Nat) : Option Nat :=
  match verts with
  | [] => none
  | w :: ws => some (ws.foldl
      (fun best u => if degreeIn edges verts u < degreeIn edges verts best then u else best) w)

/-- Modelled from the spec: the removal loop of `maximum_minimum_degree`. -/
def mmdAux (edges : List (Nat × Nat)) : Nat → List Nat → Nat
  | 0, _ => 0
  | fuel + 1, verts =>
    match minDegreeVertex edges verts with
    | none => 0
    | some v =>
      max (degreeIn edges verts v) (mmdAux edges fuel (verts.filter (fun u => u ≠ v)))

/-- Modelled from the spec: `maximum_minimum_degree` (§4.H), the
acceptance test of the generator's guarantee loop. -/
def maximum_minimum_degree (g : KGraph) : Nat :=
  mmdAux g.edges g.node_count (List.range g.node_count)

/-- Embedding of `generate_partial_k_tree_with_guaranteed_treewidth`.  Each
loop iteration consumes one `(attach, removal)` pair of rng draws; the
list of pairs also serves as fuel.  `none` means the fuel ran out with the
loop still running, `some none` means the source returned `None`,
`some (some g)` means it returned the graph `g`. -/
def generate_partial_k_tree_with_guaranteed_treewidth (k n p : Nat) :
    List (List (List Nat) × List Nat) → Option (Option KGraph)
  | [] => none
  | (attach, removal) :: rest =>
    match generate_partial_k_tree k n p attach removal with
    | none => some none
    | some graph =>
      if maximum_minimum_degree graph = k then some (some graph)
      else generate_partial_k_tree_with_guaranteed_treewidth k n p rest

/-! ## Path filling (fill_bags_along_paths.rs) -/
/-- A petgraph `Graph<HashSet<NodeIndex>, E, Undirected>` as the fillers
observe it: `bags` is indexed by node index (petgraph node indices are
`0 .. count-1` in insertion order), `edges` keeps insertion order.  Edge
weights are never read by the fillers and are not modelled. -/
structure TGraph where
  bags : List (Finset Nat)
  edges : List (Nat × Nat)
deriving DecidableEq

/-- The bag (node weight) of node `i`. -/
def bagOf (g : TGraph) (i : Nat) : Finset Nat := g.bags.getD i ∅

/-- petgraph `neighbors` order for an undirected graph: edges where `v` is
the source, newest first, then edges where `v` is the target, newest
first. -/
def neighborsOf (g : TGraph) (v : Nat) : List Nat :=
  (g.edges.reverse.filterMap (fun e => if e.1 = v then some e.2 else none)) ++
    (g.edges.reverse.filterMap (fun e => if e.2 = v then some e.1 else none))

/-- `node_weight_mut(i).expect(..)` followed by `extend` / `insert`:
`none` when the bag does not exist (the source panics). -/
def extendBag (g : TGraph) (i : Nat) (s : Finset Nat) : Option TGraph :=
  if i < g.bags.length then
    some { g with bags := g.bags.set i (g.bags.getD i ∅ ∪ s) }
  else none

/-- First `some` value of `f` over a list. -/
def firstSome {α β : Type} (f : α → Option β) : List α → Option β
  | [] => none
  | x :: xs =>
    match f x with
    | some y => some y
    | none => firstSome f xs

/-- Depth-first search for a simple path, embedding
`all_simple_paths(&*graph, first, second, 0, None).next()`: in a tree the
simple path between two nodes is unique, so any search order yields it.
The returned list runs from `cur` to `goal`, both included. -/
def findPathAux (g : TGraph) : Nat → List Nat → Nat → Nat → Option (List Nat)
  | 0, _, _, _ => none
  | fuel + 1, visited, cur, goal =>
    if cur = goal then some [cur]
    else
      firstSome
        (fun nb =>
          if nb ∈ visited then none
          else (findPathAux g fuel (nb :: visited) nb goal).map (fun p => cur :: p))
        (neighborsOf g cur)

/-- The simple path from `a` to `b` (`none` when no path exists, in which
case the source's `expect` panics). -/
def findPath (g : TGraph) (a b : Nat) : Option (List Nat) :=
  findPathAux g (g.edges.length + 1) [a] a b

/-- itertools `combinations(2)` over `node_indices()`: pairs `(i, j)` with
`i < j < n` in lexicographic order.  The source then pops the `Vec`, so
`first_index = j` and `second_index = i`. -/
def combinations2 (n : Nat) : List (Nat × Nat) :=
  (List.range n).flatMap
    (fun i => ((List.range n).filter (fun j => i < j)).map (fun j => (i, j)))

/-- The nodes whose bags the pairwise filler extends for one pair: the
path from `first_index` to `second_index` with its last element
(`second_index`) popped off, and the nodes equal to `first_index`
filtered out by the loop's guard. -/
def pairInsertionTargets (g : TGraph) (second_index first_index : Nat) : Option (List Nat) :=
  (findPath g first_index second_index).map
    (fun path => path.dropLast.filter (fun node_index => node_index ≠ first_index))

/-- One iteration of the pairwise filler's loop on the combination
`[second_index, first_index]`: read both bags, and when they intersect
extend every target bag by the intersection. -/
def processPair (g : TGraph) (second_index first_index : Nat) : Option TGraph :=
  let intersection := bagOf g first_index ∩ bagOf g second_index
  if intersection = ∅ then some g
  else
    match pairInsertionTargets g second_index first_index with
    | none => none
    | some targets =>
      targets.foldlM (fun h node_index => extendBag h node_index intersection) g

/-- Embedding of `fill_bags_along_paths`. -/
def fill_bags_along_paths (g : TGraph) : Option TGraph :=
  (combinations2 g.bags.length).foldlM (fun h pair => processPair h pair.1 pair.2) g

/-- Degree as used for root selection
(`graph.neighbors(v).collect::<Vec<_>>().len()`). -/
def degreeOf (g : TGraph) (v : Nat) : Nat := (neighborsOf g v).length

/-- Root selection: `node_indices().max_by_key(degree)`.  Rust's
`max_by_key` returns the *last* maximal element and the source `expect`s
on an empty graph (`none`). -/
def rootOf (g : TGraph) : Option Nat :=
  match g.bags.length with
  | 0 => none
  | n + 1 =>
    some ((List.range (n + 1)).foldl
      (fun best v => if degreeOf g best ≤ degreeOf g v then v else best) 0)

/-- The DFS loop of `setup_predecessors` with its explicit stack (list
head = stack top).  A neighbor not yet in the map and different from the
root is recorded with `(current_vertex, current_index)` and pushed with
depth `current_index + 1`; `Vec` push order means the last-pushed neighbor
is popped first.  The fuel is generous: the source loop always terminates
because every vertex is pushed at most once. -/
def setupLoop (g : TGraph) (root : Nat) :
    Nat → List (Nat × Nat) → List (Nat × Nat × Nat) → List (Nat × Nat × Nat)
  | 0, _, pm => pm
  | _ + 1, [], pm => pm
  | fuel + 1, (current_vertex, current_index) :: stack, pm =>
    let step := (neighborsOf g current_vertex).foldl
      (fun (acc : List (Nat × Nat) × List (Nat × Nat × Nat)) next_vertex =>
        if (acc.2.lookup next_vertex).isNone ∧ next_vertex ≠ root then
          ((next_vertex, current_index + 1) :: acc.1,
            acc.2 ++ [(next_vertex, current_vertex, current_index)])
        else acc)
      (stack, pm)
    setupLoop g root fuel step.1 step.2

/-- Embedding of `setup_predecessors` with its two trailing `assert`s;
`none` means an assertion failed and the program aborts. -/
def setup_predecessors (g : TGraph) (root : Nat) : Option (List (Nat × Nat × Nat)) :=
  let pm := setupLoop g root (2 * g.edges.length + g.bags.length + 2) [(root, 0)] []
  if pm.length = g.bags.length - 1 ∧ (pm.lookup root).isNone then some pm else none

/-- The strict `Ord` of `Predecessor` as a comparison on `(level_index,
node_index)` pairs: `level_index` first, `node_index` breaking ties. -/
def predLtb (x y : Nat × Nat) : Bool := x.1 < y.1 || (x.1 = y.1 && x.2 < y.2)

/-- `BTreeSet::insert`: an element equal to a present one (same level and
node index) coalesces. -/
def pendingInsert (x : Nat × Nat) (pending : List (Nat × Nat)) : List (Nat × Nat) :=
  if x ∈ pending then pending else x :: pending

/-- `BTreeSet::pop_last`: the greatest element in the `(level_index,
node_index)` order, and the remaining set. -/
def pendingPopMax (pending : List (Nat × Nat)) : Option ((Nat × Nat) × List (Nat × Nat)) :=
  match pending with
  | [] => none
  | x :: xs =>
    let m := xs.foldl (fun best y => if predLtb best y then y else best) x
    some (m, pending.filter (fun y => y ≠ m))

/-- Fuel bound for the walk: every iteration pops an element of level `l`
and inserts at most one element of level `< l`, so this strictly
decreases. -/
def pendingMeasure (pending : List (Nat × Nat)) : Nat :=
  (pending.map (fun x => x.1 + 1)).sum

/-- The while-loop of `fill_bags_until_common_predecessor`: while more
than one walker is pending, pop the deepest, insert `v` into its bag, and
push its predecessor (if any).  `none` = a bag was missing or the fuel ran
out (the call sites supply sufficient fuel). -/
def fillLoop (pm : List (Nat × Nat × Nat)) (v : Nat) :
    Nat → List (Nat × Nat) → TGraph → Option (TGraph × List (Nat × Nat))
  | 0, pending, g => if pending.length ≤ 1 then some (g, pending) else none
  | fuel + 1, pending, g =>
    if pending.length ≤ 1 then some (g, pending)
    else
      match pendingPopMax pending with
      | none => some (g, pending)
      | some (current, rest) =>
        match extendBag g current.2 {v} with
        | none => none
        | some g' =>
          match pm.lookup current.2 with
          | some (predecessor, index) =>
            fillLoop pm v fuel (pendingInsert (index, predecessor) rest) g'
          | none => fillLoop pm v fuel rest g'

/-- Embedding of `fill_bags_until_common_predecessor`: build the initial
`BTreeSet` of walkers from the clique-graph-map entry `s` (only when
`|s| > 1`; a member with a map entry `(_, index)` enters at level
`index + 1`, a member without — the root — at level `0`), run the walk,
then insert `v` into the bag of the one remaining element, the common
ancestor.  The clique-graph-map entry is a `HashSet` in the source; `s`
is the (duplicate-free) sequence in which it is iterated, so `s.length`
is its `len()`. -/
def fill_bags_until_common_predecessor (g : TGraph) (pm : List (Nat × Nat × Nat))
    (v : Nat) (s : List Nat) : Option TGraph :=
  let pending :=
    if 1 < s.length then
      s.foldl
        (fun acc w =>
          match pm.lookup w with
          | some (_, index) => pendingInsert (index + 1, w) acc
          | none => pendingInsert (0, w) acc)
        []
    else []
  match fillLoop pm v (pendingMeasure pending + 1) pending g with
  | none => none
  | some (g', pending') =>
    match pending' with
    | [] => some g'
    | common_predecessor :: _ => extendBag g' common_predecessor.2 {v}

/-- Embedding of `fill_bags_along_paths_using_structure`: root selection,
predecessor-map construction (with its asserts), then one
`fill_bags_until_common_predecessor` call per clique-graph-map entry.
`HashMap` key iteration order is arbitrary in the source and the calls
commute; the entry list fixes one order.  Returns the filled graph and
the predecessor map. -/
def fill_bags_along_paths_using_structure (g : TGraph)
    (clique_graph_map : List (Nat × List Nat)) :
    Option (TGraph × List (Nat × Nat × Nat)) :=
  match rootOf g with
  | none => none
  | some root =>
    match setup_predecessors g root with
    | none => none
    | some pm =>
      match clique_graph_map.foldlM
          (fun h entry => fill_bags_until_common_predecessor h pm entry.1 entry.2) g with
      | none => none
      | some g' => some (g', pm)

/-- The exact clique-graph map of a graph over a list of original-graph
vertices: each vertex `v` maps to the list of nodes whose bag contains
`v`. -/
def cliqueGraphMapOf (g : TGraph) (vertices : List Nat) : List (Nat × List Nat) :=
  vertices.map
    (fun v => (v, (List.range g.bags.length).filter (fun i => v ∈ bagOf g i)))

/-! ## Predecessor chains (for the structural filler's specification) -/
/-- The walker level the source assigns to a node: `index + 1` for a node
with a predecessor entry `(predecessor, index)`, `0` for a node without
an entry (the root case in `fill_bags_until_common_predecessor`). -/
def wlv (pm : List (Nat × Nat × Nat)) (v : Nat) : Nat :=
  match pm.lookup v with
  | some (_, index) => index + 1
  | none => 0

/-- The predecessor chain from `v` towards the root, `v` included, with
explicit fuel. -/
def ancChainAux (pm : List (Nat × Nat × Nat)) : Nat → Nat → List Nat
  | 0, v => [v]
  | fuel + 1, v =>
    match pm.lookup v with
    | some (predecessor, _) => v :: ancChainAux pm fuel predecessor
    | none => [v]

/-- The predecessor chain of `v`: fuel `wlv pm v` reaches the chain's end
exactly when the map is well-formed. -/
def ancChain (pm : List (Nat × Nat × Nat)) (v : Nat) : List Nat :=
  ancChainAux pm (wlv pm v) v

/-- Well-formedness of a predecessor map rooted at `root`: the root has no
entry, and every entry records, along with the predecessor, the
predecessor's own level (as `setup_predecessors` does: the root is at
level `0` and each vertex is recorded with its discoverer's level). -/
def PMWf (pm : List (Nat × Nat × Nat)) (root : Nat) : Prop :=
  pm.lookup root = none ∧ ∀ e ∈ pm, wlv pm e.2.1 = e.2.2

instance (pm : List (Nat × Nat × Nat)) (root : Nat) : Decidable (PMWf pm root) := by
  unfold PMWf
  infer_instance

/-! ## Concrete graphs used by counterexamples and witnesses -/
/-- A spanning forest with two components: two isolated nodes with bags
`{0}` and `{1}`. -/
def forestTwoComponents : TGraph := { bags := [{0}, {1}], edges := [] }

/-- A three-node path `0 – 1 – 2` whose end bags share the vertex `5`. -/
def pathThree : TGraph := { bags := [{5}, ∅, {5}], edges := [(0, 1), (1, 2)] }

/-- `pathThree` after its middle bag received `{5}`. -/
def pathThreeFilled : TGraph := { bags := [{5}, {5}, {5}], edges := [(0, 1), (1, 2)] }

/-- A two-node tree whose bags share the vertex `1`. -/
def twoNodeTree : TGraph := { bags := [{0, 1}, {1, 2}], edges := [(0, 1)] }

/-- A three-node path as a tree for the structural filler's witness, with
the predecessor map rooted at node `1`. -/
def pathThreeBags : TGraph := { bags := [{7}, ∅, {7}], edges := [(0, 1), (1, 2)] }

/-- `pathThreeBags` after its middle bag received `{7}`. -/
def pathThreeBagsFilled : TGraph := { bags := [{7}, {7}, {7}], edges := [(0, 1), (1, 2)] }

/-- A well-formed predecessor map for `pathThreeBags` rooted at `1`:
nodes `0` and `2` have predecessor `1`, which is at level `0`. -/
def pathThreePM : List (Nat × Nat × Nat) := [(0, 1, 0), (2, 1, 0)]

/-- The nodes of the pending walkers. -/
def pendNodes (pending : List (Nat × Nat)) : List Nat := pending.map Prod.snd

/-- The union of the predecessor chains of all pending walkers. -/
def ancU (pm : List (Nat × Nat × Nat)) (pending : List (Nat × Nat)) : Finset Nat :=
  (pendNodes pending).toFinset.biUnion (fun n => (ancChain pm n).toFinset)

/-- The walk's loop invariant over the pending `BTreeSet`: entries are
distinct, carry their node's canonical level, their nodes lie on chains of
members of `S`, every member of `S` has a pending walker on its chain, and
every common ancestor of all of `S` lies on the chain of every pending
walker. -/
structure WalkInv (pm : List (Nat × Nat × Nat)) (S : List Nat)
    (pending : List (Nat × Nat)) : Prop where
  nodup : pending.Nodup
  lv : ∀ e ∈ pending, e.1 = wlv pm e.2
  inA : ∀ e ∈ pending, ∃ s ∈ S, e.2 ∈ ancChain pm s
  rep : ∀ s ∈ S, ∃ e ∈ pending, e.2 ∈ ancChain pm s
  common : ∀ d, (∀ s ∈ S, d ∈ ancChain pm s) → ∀ e ∈ pending, d ∈ ancChain pm e.2

/-- The walk towards the deepest common ancestor of two chains. -/
def meetAux (pm : List (Nat × Nat × Nat)) (y : Nat) : Nat → Nat → Nat
  | 0, x => x
  | fuel + 1, x =>
    if x ∈ ancChain pm y then x
    else
      match pm.lookup x with
      | some (p, _) => meetAux pm y fuel p
      | none => x

/-- The deepest common element of the chains of `x` and of `y`. -/
def meet (pm : List (Nat × Nat × Nat)) (x y : Nat) : Nat :=
  meetAux pm y (wlv pm x + 1) x

/-! ## Path segments in chain coordinates -/
/-- The segment of the chain of `a` from `a` down to `m` (assuming `m`
lies on the chain of `a`): the chain of `a` without the strict ancestors
of `m`. -/
def chainTo (pm : List (Nat × Nat × Nat)) (a m : Nat) : Finset Nat :=
  (ancChain pm a).toFinset \ ((ancChain pm m).toFinset \ {m})

/-- Adjacency in the parent relation of a predecessor map: one endpoint is
the recorded predecessor of the other. -/
def pmAdj (pm : List (Nat × Nat × Nat)) (a b : Nat) : Prop :=
  (∃ i, pm.lookup a = some (b, i)) ∨ (∃ i, pm.lookup b = some (a, i))

/-- Consecutive nodes are `pmAdj`-adjacent. -/
def IsPmPath (pm : List (Nat × Nat × Nat)) : List Nat → Prop
  | [] => True
  | [_] => True
  | a :: b :: t => pmAdj pm a b ∧ IsPmPath pm (b :: t)

/-! ## The DFS path is a duplicate-free adjacent walk -/
/-- Undirected adjacency in a `TGraph`'s edge list. -/
def adjacentB (g : TGraph) (a b : Nat) : Prop := (a, b) ∈ g.edges ∨ (b, a) ∈ g.edges

/-- Consecutive nodes are edge-adjacent. -/
def IsGraphPath (g : TGraph) : List Nat → Prop
  | [] => True
  | [_] => True
  | a :: b :: t => adjacentB g a b ∧ IsGraphPath g (b :: t)

/-- An edge as an unordered pair. -/
def normPair (e : Nat × Nat) : Nat × Nat := (min e.1 e.2, max e.1 e.2)

/-! ## Invariants of the DFS that builds the predecessor map -/
/-- One neighbour-processing step of `setup_predecessors`' DFS. -/
def setupStep (root cv ci : Nat)
    (acc : List (Nat × Nat) × List (Nat × Nat × Nat)) (next_vertex : Nat) :
    List (Nat × Nat) × List (Nat × Nat × Nat) :=
  if (acc.2.lookup next_vertex).isNone ∧ next_vertex ≠ root then
    ((next_vertex, ci + 1) :: acc.1, acc.2 ++ [(next_vertex, cv, ci)])
  else acc

/-- The invariant of the DFS state: the predecessor map has distinct
non-root keys at their canonical levels, each entry records a
graph-adjacent predecessor that is itself the root or a key, and every
stack item carries its node's canonical level and is the root or a key. -/
structure SetupInv (g : TGraph) (root : Nat) (st : List (Nat × Nat))
    (pm : List (Nat × Nat × Nat)) : Prop where
  keysNodup : (pm.map Prod.fst).Nodup
  keyNe : ∀ e ∈ pm, e.1 ≠ root
  lvOk : ∀ e ∈ pm, wlv pm e.2.1 = e.2.2
  parMem : ∀ e ∈ pm, e.2.1 = root ∨ e.2.1 ∈ pm.map Prod.fst
  adjOk : ∀ e ∈ pm, adjacentB g e.1 e.2.1
  stLv : ∀ it ∈ st, wlv pm it.1 = it.2
  stMem : ∀ it ∈ st, it.1 = root ∨ it.1 ∈ pm.map Prod.fst

/-! ## Trees and the global facts a successful DFS establishes -/
/-- A tree presented as a `TGraph`: non-empty, with exactly
`node_count - 1` distinct self-loop-free undirected edges between valid
nodes.  (Connectivity is not assumed separately: the asserts of
`setup_predecessors` certify that the DFS spanned the graph.) -/
def IsTreeGraph (g : TGraph) : Prop :=
  g.bags ≠ [] ∧ g.edges.length = g.bags.length - 1 ∧
  (∀ e ∈ g.edges, e.1 < g.bags.length ∧ e.2 < g.bags.length ∧ e.1 ≠ e.2) ∧
  (g.edges.map normPair).Nodup

instance (g : TGraph) : Decidable (IsTreeGraph g) := by
  unfold IsTreeGraph
  infer_instance

/-! ## The filling hull of a vertex -/
/-- The tree nodes whose bag holds `u`. -/
def holdersList (g : TGraph) (u : Nat) : List Nat :=
  (List.range g.bags.length).filter (fun n => u ∈ bagOf g n)

/-- The node set of the unique tree path between `x` and `y`, in chain
coordinates. -/
def pathViaSet (pm : List (Nat × Nat × Nat)) (x y : Nat) : Finset Nat :=
  chainTo pm x (meet pm x y) ∪ chainTo pm y (meet pm x y)

/-- The union of the pairwise paths between all holders of `u`: the set of
bags that hold `u` after pairwise filling. -/
def hullSet (g : TGraph) (pm : List (Nat × Nat × Nat)) (u : Nat) : Finset Nat :=
  (holdersList g u).toFinset.biUnion fun x =>
    (holdersList g u).toFinset.biUnion fun y => pathViaSet pm x y

/-- Minimising a function over a list by a fold. -/
def listArgmin (f : Nat → Nat) (x : Nat) (xs : List Nat) : Nat :=
  xs.foldl (fun best t => if f t < f best then t else best) x

/-- An exact clique-graph map for a graph: distinct keys, each entry
carrying precisely the nodes whose bag holds the key vertex, and a key for
every vertex that occurs in a bag. -/
def ExactCGM (g : TGraph) (cgm : List (Nat × List Nat)) : Prop :=
  (cgm.map Prod.fst).Nodup ∧
  (∀ e ∈ cgm, e.2.Nodup ∧
    (∀ s ∈ e.2, s < g.bags.length ∧ e.1 ∈ bagOf g s) ∧
    (∀ s, s < g.bags.length → e.1 ∈ bagOf g s → s ∈ e.2)) ∧
  (∀ n, n < g.bags.length → ∀ u ∈ bagOf g n, u ∈ cgm.map Prod.fst)

instance (g : TGraph) (cgm : List (Nat × List Nat)) : Decidable (ExactCGM g cgm) := by
  unfold ExactCGM
  infer_instance

/-! ## Claim theorems for the heuristics and the generator -/
/-- C10: each edge-weight heuristic returns the integer the spec states:
`0`, `−|bag₁ ∩ bag₂|`, `+|bag₁ ∩ bag₂|`, `|bag₁| + |bag₂|`,
`|bag₁ ∪ bag₂|`, and `|bag₁ ∆ bag₂|` (symmetric difference size). -/
theorem heuristics_return_spec_values (bag₁ bag₂ : Finset Nat) :
    neutral_heuristic bag₁ bag₂ = 0 ∧
    negative_intersection_heuristic bag₁ bag₂ = -(((bag₁ ∩ bag₂).card : Int)) ∧
    positive_intersection_heuristic bag₁ bag₂ = ((bag₁ ∩ bag₂).card : Int) ∧
    disjoint_union_heuristic bag₁ bag₂ = ((bag₁.card + bag₂.card : Nat) : Int) ∧
    union_heuristic bag₁ bag₂ = ((bag₁ ∪ bag₂).card : Int) ∧
    least_difference_heuristic bag₁ bag₂ = ((symmDiff bag₁ bag₂).card : Int) := by
  refine ⟨rfl, ?_, ?_, rfl, ?_, ?_⟩
  · simp [negative_intersection_heuristic, Finset.filter_mem_eq_inter]
  · simp [positive_intersection_heuristic, Finset.filter_mem_eq_inter]
  · have h : bag₁ ∪ bag₂.filter (fun x => x ∉ bag₁) = bag₁ ∪ bag₂ := by
      ext x
      simp only [Finset.mem_union, Finset.mem_filter]
      tauto
    simp [union_heuristic, h]
  · have h : bag₁.filter (fun x => x ∉ bag₂) ∪ bag₂.filter (fun x => x ∉ bag₁)
        = symmDiff bag₁ bag₂ := by
      rw [symmDiff_def]
      simp only [Finset.sup_eq_union, Finset.sdiff_eq_filter]
    simp [least_difference_heuristic, h]

/-- Helper for C8: when `k ≤ n`, every iteration of the guarantee loop
builds a graph, so the loop can exhaust its draws or succeed but never
returns the source's `None`. -/
theorem guaranteed_loop_no_none_of_le (k n p : Nat) (h : ¬ k > n) :
    ∀ trials, generate_partial_k_tree_with_guaranteed_treewidth k n p trials ≠ some none := by
  intro trials
  induction trials with
  | nil => simp [generate_partial_k_tree_with_guaranteed_treewidth]
  | cons trial rest ih =>
    obtain ⟨attach, removal⟩ := trial
    simp only [generate_partial_k_tree_with_guaranteed_treewidth,
      generate_partial_k_tree, generate_k_tree, if_neg h]
    split
    · simp
    · exact ih

/-- C8: `generate_partial_k_tree` and the guaranteed variant return the
absent value iff `k > n`; with `k ≤ n` the plain generator returns a graph
and the guaranteed variant never returns the absent value (it either
returns a graph or is still retrying when its rng draws run out). -/
theorem generator_absent_iff_k_gt_n (k n p : Nat) (attach : List (List Nat))
    (removal : List Nat) (trial : List (List Nat) × List Nat)
    (trials : List (List (List Nat) × List Nat)) :
    (generate_partial_k_tree k n p attach removal = none ↔ k > n) ∧
    (generate_partial_k_tree_with_guaranteed_treewidth k n p (trial :: trials) = some none
      ↔ k > n) := by
  by_cases h : k > n
  · constructor
    · simp [generate_partial_k_tree, generate_k_tree, if_pos h, h]
    · obtain ⟨a, r⟩ := trial
      simp [generate_partial_k_tree_with_guaranteed_treewidth,
        generate_partial_k_tree, generate_k_tree, if_pos h, h]
  · constructor
    · simp [generate_partial_k_tree, generate_k_tree, if_neg h, h]
    · simp only [iff_false_intro h, iff_false]
      exact guaranteed_loop_no_none_of_le k n p h (trial :: trials)

/-- C6 (code bug): with `k = 2`, `n = 3`, `p = 70` the formula asks for
`min ⌊3·70/100⌋ 3 = 2` removals, and the rng draw order `[0, 2]` is one
that `choose_multiple` can return; but `remove_edge 0` swap-removes, so
index `2` is invalidated and the second removal is a no-op: the output
graph keeps `2` edges where the claim demands `3 − 2 = 1`. -/
theorem generate_partial_k_tree_wrong_edge_count :
    ValidAttach 2 3 [[0, 1]] ∧
    (generate_k_tree 2 3 [[0, 1]]).map KGraph.edges = some [(0, 1), (2, 0), (2, 1)] ∧
    ValidRemoval 2 3 70 [(0, 1), (2, 0), (2, 1)] [0, 2] ∧
    (generate_partial_k_tree 2 3 70 [[0, 1]] [0, 2]).map (fun g => g.edges.length) = some 2 ∧
    number_of_edges_k_tree 2 3 - number_of_edges_to_be_removed 2 3 70 = 1 := by
  refine ⟨?_, ?_, ?_, ?_, ?_⟩ <;> decide

/-- C7 (code bug): with `k = 1`, `n = 2` the extension step draws `1` node
from `node_identifiers()` *after* the new vertex `1` was added, so `[1]`
is a draw the rng can return, and it produces the self-loop `(1, 1)` —
the new vertex is not connected to a previously existing vertex. -/
theorem generate_k_tree_can_self_loop :
    ValidAttach 1 2 [[1]] ∧
    (generate_k_tree 1 2 [[1]]).map KGraph.edges = some [(1, 1)] := by
  refine ⟨?_, ?_⟩ <;> decide

/-- C9 (counterexample): two runs with identical caller-provided rng draws
(`removal = []`) but different thread-local rng draws for the attachment
step produce different graphs, so the generation does not read its
randomness only from the caller-provided source. -/
theorem generation_depends_on_thread_rng :
    ValidAttach 1 2 [[0]] ∧ ValidAttach 1 2 [[1]] ∧
    ValidRemoval 1 2 0 [(1, 0)] [] ∧ ValidRemoval 1 2 0 [(1, 1)] [] ∧
    generate_partial_k_tree 1 2 0 [[0]] [] ≠ generate_partial_k_tree 1 2 0 [[1]] [] := by
  refine ⟨?_, ?_, ?_, ?_, ?_⟩ <;> decide

/-- C9 (amended): the generator is a deterministic function of *both* rng
draw sequences; the caller-provided source alone fixes the output exactly
when no attachment draws occur, i.e. when `n ≤ k`. -/
theorem generation_deterministic_without_attachment (k n p : Nat) (h : n ≤ k)
    (attach attach' : List (List Nat)) (removal : List Nat) :
    generate_partial_k_tree k n p attach removal =
      generate_partial_k_tree k n p attach' removal := by
  have hnk : n - k = 0 := Nat.sub_eq_zero_of_le h
  simp [generate_partial_k_tree, generate_k_tree, hnk]

/-- Witness for the amended C9 theorem at `k = n = 2`. -/
theorem generation_deterministic_without_attachment_witness :
    2 ≤ 2 ∧ generate_partial_k_tree 2 2 50 [[9]] [0] = generate_partial_k_tree 2 2 50 [] [0] :=
  ⟨Nat.le_refl 2, generation_deterministic_without_attachment 2 2 50 (Nat.le_refl 2) [[9]] [] [0]⟩

/-! ## Infrastructure lemmas for the path fillers -/
/-- A successful lookup exhibits a member of the association list. -/
theorem lookup_mem {α β : Type} [BEq α] [LawfulBEq α] {l : List (α × β)} {k : α} {b : β}
    (h : l.lookup k = some b) : (k, b) ∈ l := by
  obtain ⟨l₁, l₂, rfl, -⟩ := List.lookup_eq_some_iff.mp h
  simp

/-- What `extendBag` does to each bag. -/
theorem extendBag_bagOf {g g' : TGraph} {i : Nat} {s : Finset Nat}
    (h : extendBag g i s = some g') :
    g'.bags.length = g.bags.length ∧ bagOf g' i = bagOf g i ∪ s ∧
      ∀ j, j ≠ i → bagOf g' j = bagOf g j := by
  unfold extendBag at h
  split at h
  case isTrue hi =>
    simp only [Option.some.injEq] at h
    subst h
    refine ⟨by simp, ?_, ?_⟩
    · simp [bagOf, List.getD_eq_getElem?_getD, List.getElem?_set_self hi]
    · intro j hj
      simp [bagOf, List.getD_eq_getElem?_getD, List.getElem?_set_ne (Ne.symm hj)]
  case isFalse => cases h

/-- A successful `extendBag` never shrinks a bag. -/
theorem extendBag_mono {g g' : TGraph} {i : Nat} {s : Finset Nat}
    (h : extendBag g i s = some g') : ∀ j, bagOf g j ⊆ bagOf g' j := by
  intro j
  obtain ⟨-, hb, ho⟩ := extendBag_bagOf h
  by_cases hj : j = i
  · subst hj
    rw [hb]
    exact Finset.subset_union_left
  · rw [ho j hj]

/-- Folding `extendBag` with a fixed set over a target list: targets end up
with the set added, everything else is untouched. -/
theorem foldExtend_spec (s : Finset Nat) (targets : List Nat) :
    ∀ (g g' : TGraph),
      targets.foldlM (fun h i => extendBag h i s) g = some g' →
      g'.bags.length = g.bags.length ∧
        (∀ n ∈ targets, bagOf g' n = bagOf g n ∪ s) ∧
        (∀ n, n ∉ targets → bagOf g' n = bagOf g n) := by
  induction targets with
  | nil =>
    intro g g' h
    simp only [List.foldlM_nil] at h
    cases h
    exact ⟨rfl, by simp, fun n _ => rfl⟩
  | cons t ts ih =>
    intro g g' h
    rw [List.foldlM_cons] at h
    obtain ⟨g₁, h₁, h₂⟩ := Option.bind_eq_some.mp h
    obtain ⟨hlen₁, hbag₁, hoth₁⟩ := extendBag_bagOf h₁
    obtain ⟨hlen₂, hmem₂, hoth₂⟩ := ih g₁ g' h₂
    refine ⟨hlen₂.trans hlen₁, ?_, ?_⟩
    · intro n hn
      rcases List.mem_cons.mp hn with rfl | hn'
      · by_cases hts : n ∈ ts
        · rw [hmem₂ n hts, hbag₁, Finset.union_assoc, Finset.union_self]
        · rw [hoth₂ n hts, hbag₁]
      · by_cases hnt : n = t
        · subst hnt
          rw [hmem₂ n hn', hbag₁, Finset.union_assoc, Finset.union_self]
        · rw [hmem₂ n hn', hoth₁ n hnt]
    · intro n hn
      have hnt : n ≠ t := fun h => hn (h ▸ List.mem_cons_self t ts)
      have hnts : n ∉ ts := fun h => hn (List.mem_cons_of_mem t h)
      rw [hoth₂ n hnts, hoth₁ n hnt]

/-- Inversion for `firstSome`. -/
theorem firstSome_eq_some {α β : Type} (f : α → Option β) :
    ∀ (l : List α) {y : β}, firstSome f l = some y → ∃ x ∈ l, f x = some y := by
  intro l
  induction l with
  | nil => intro y h; cases h
  | cons x xs ih =>
    intro y h
    rw [firstSome] at h
    cases hfx : f x with
    | some z =>
      rw [hfx] at h
      exact ⟨x, List.mem_cons_self x xs, hfx.trans h⟩
    | none =>
      rw [hfx] at h
      obtain ⟨w, hw, hfw⟩ := ih h
      exact ⟨w, List.mem_cons_of_mem x hw, hfw⟩

/-- A found path starts at the start node and ends at the goal node. -/
theorem findPathAux_head_last (g : TGraph) :
    ∀ (fuel : Nat) (visited : List Nat) (cur goal : Nat) (p : List Nat),
      findPathAux g fuel visited cur goal = some p →
      p.head? = some cur ∧ p.getLast? = some goal := by
  intro fuel
  induction fuel with
  | zero => intro _ _ _ p h; cases h
  | succ fuel ih =>
    intro visited cur goal p h
    rw [findPathAux] at h
    by_cases hc : cur = goal
    · rw [if_pos hc] at h
      simp only [Option.some.injEq] at h
      subst h
      subst hc
      exact ⟨rfl, rfl⟩
    · rw [if_neg hc] at h
      obtain ⟨nb, _, hf⟩ := firstSome_eq_some _ _ h
      by_cases hv : nb ∈ visited
      · rw [if_pos hv] at hf
        cases hf
      · rw [if_neg hv] at hf
        obtain ⟨q, hq, rfl⟩ := Option.map_eq_some'.mp hf
        obtain ⟨hqh, hql⟩ := ih _ _ _ _ hq
        refine ⟨rfl, ?_⟩
        cases q with
        | nil => cases hqh
        | cons a t =>
          rw [List.getLast?_cons_cons]
          exact hql

/-- C5 (code bug): on a non-empty spanning forest with two components the
structural filler aborts instead of completing: the DFS reaches only the
root's component, so the source's assert
`predecessors_map.len() == graph.node_count() - 1` in `setup_predecessors`
fails (modelled as `none`). -/
theorem structural_filler_aborts_on_forest :
    forestTwoComponents.bags.length = 2 ∧
    fill_bags_along_paths_using_structure forestTwoComponents
      (cliqueGraphMapOf forestTwoComponents [0, 1]) = none := by
  constructor
  · rfl
  · decide

/-- C2 (counterexample): on the path `0 – 1 – 2` with bags `{5}, ∅, {5}`,
the combination `[0, 2]` is popped as `first_index = 2` (the claim's `a`),
`second_index = 0` (the claim's `b`); the bags intersect and the tree path
is `[2, 1, 0]`, yet the insertion-target list is `[1]`: the endpoint
`b = 0` lies on the path and differs from `a = 2` but is *not* an
insertion target — the source pops it off the path before the loop. -/
theorem pairwise_endpoint_not_insertion_target :
    bagOf pathThree 2 ∩ bagOf pathThree 0 ≠ ∅ ∧
    findPath pathThree 2 0 = some [2, 1, 0] ∧
    pairInsertionTargets pathThree 0 2 = some [1] ∧
    ¬ (∀ n ∈ [2, 1, 0], n ≠ 2 → n ∈ [1]) := by
  refine ⟨by decide, by decide, by decide, by decide⟩

/-- C2 (amended): for a pair popped as `(second_index, first_index)` whose
bags intersect, the insertion targets are exactly the *interior* nodes of
the `first_index`–`second_index` path — the end `second_index` is popped
off the path and the start `first_index` is filtered out — and bags off
the target list are unchanged.  Because both endpoint bags already contain
the intersection, after the step the intersection is nevertheless
contained in the bag of every node on the path, the endpoint
`second_index` included. -/
theorem processPair_fills_path_interior (g g' : TGraph) (first_index second_index : Nat)
    (path : List Nat)
    (hpath : findPath g first_index second_index = some path)
    (hrun : processPair g second_index first_index = some g') :
    (∀ n ∈ path.dropLast.filter (fun x => x ≠ first_index),
        bagOf g' n = bagOf g n ∪ (bagOf g first_index ∩ bagOf g second_index)) ∧
    (∀ n ∈ path, bagOf g first_index ∩ bagOf g second_index ⊆ bagOf g' n) ∧
    (∀ n, n ∉ path.dropLast.filter (fun x => x ≠ first_index) → bagOf g' n = bagOf g n) := by
  have hhl := findPathAux_head_last g _ _ _ _ _ hpath
  have hne : path ≠ [] := by
    intro h
    rw [h] at hhl
    cases hhl.1
  have hlast : path.getLast hne = second_index := by
    have := hhl.2
    rw [List.getLast?_eq_getLast path hne] at this
    exact Option.some.inj this
  unfold processPair at hrun
  by_cases hIe : bagOf g first_index ∩ bagOf g second_index = ∅
  · rw [if_pos hIe] at hrun
    simp only [Option.some.injEq] at hrun
    subst hrun
    refine ⟨?_, ?_, fun n _ => rfl⟩
    · intro n _
      rw [hIe, Finset.union_empty]
    · intro n _
      rw [hIe]
      exact Finset.empty_subset _
  · rw [if_neg hIe] at hrun
    unfold pairInsertionTargets at hrun
    rw [hpath] at hrun
    simp only [Option.map_some'] at hrun
    obtain ⟨hlen, hmem, hoth⟩ := foldExtend_spec _ _ _ _ hrun
    refine ⟨hmem, ?_, hoth⟩
    intro n hn
    by_cases ht : n ∈ path.dropLast.filter (fun x => x ≠ first_index)
    · rw [hmem n ht]
      exact Finset.subset_union_right
    · rw [hoth n ht]
      by_cases hf : n = first_index
      · subst hf
        exact Finset.inter_subset_left
      · have hnd : n ∉ path.dropLast := by
          intro hd
          exact ht (List.mem_filter.mpr ⟨hd, by simp [hf]⟩)
        have : n ∈ path.dropLast ++ [path.getLast hne] := by
          rw [List.dropLast_concat_getLast hne]
          exact hn
        rcases List.mem_append.mp this with h | h
        · exact absurd h hnd
        · have : n = second_index := by
            rw [← hlast]
            simpa using h
          subst this
          exact Finset.inter_subset_right

/-- Witness for the amended C2 theorem on `pathThree`, pair `(0, 2)`. -/
theorem processPair_fills_path_interior_witness :
    (∀ n ∈ [2, 1, 0].dropLast.filter (fun x => x ≠ 2),
        bagOf pathThreeFilled n = bagOf pathThree n ∪ (bagOf pathThree 2 ∩ bagOf pathThree 0)) ∧
    (∀ n ∈ [2, 1, 0], bagOf pathThree 2 ∩ bagOf pathThree 0 ⊆ bagOf pathThreeFilled n) ∧
    (∀ n, n ∉ [2, 1, 0].dropLast.filter (fun x => x ≠ 2) →
        bagOf pathThreeFilled n = bagOf pathThree n) :=
  processPair_fills_path_interior pathThree pathThreeFilled 2 0 [2, 1, 0]
    (by decide) (by decide)

/-- Folding any bag-monotone step keeps bags monotone. -/
theorem foldlM_bagOf_mono {α : Type} {f : TGraph → α → Option TGraph}
    (hf : ∀ g a g', f g a = some g' → ∀ i, bagOf g i ⊆ bagOf g' i)
    (l : List α) : ∀ (g g' : TGraph), l.foldlM f g = some g' →
      ∀ i, bagOf g i ⊆ bagOf g' i := by
  induction l with
  | nil =>
    intro g g' h i
    simp only [List.foldlM_nil] at h
    cases h
    exact Finset.Subset.refl _
  | cons a l ih =>
    intro g g' h i
    rw [List.foldlM_cons] at h
    obtain ⟨g₁, h₁, h₂⟩ := Option.bind_eq_some.mp h
    exact (hf g a g₁ h₁ i).trans (ih g₁ g' h₂ i)

/-- One pairwise step never shrinks a bag. -/
theorem processPair_mono {g g' : TGraph} {second_index first_index : Nat}
    (h : processPair g second_index first_index = some g') :
    ∀ i, bagOf g i ⊆ bagOf g' i := by
  simp only [processPair] at h
  by_cases hIe : bagOf g first_index ∩ bagOf g second_index = ∅
  · rw [if_pos hIe] at h
    cases h
    exact fun i => Finset.Subset.refl _
  · rw [if_neg hIe] at h
    cases htg : pairInsertionTargets g second_index first_index with
    | none =>
      rw [htg] at h
      cases h
    | some targets =>
      rw [htg] at h
      exact foldlM_bagOf_mono (fun g a g' ha => extendBag_mono ha) _ g g' h

/-- The walking loop never shrinks a bag. -/
theorem fillLoop_mono (pm : List (Nat × Nat × Nat)) (v : Nat) :
    ∀ (fuel : Nat) (pending : List (Nat × Nat)) (g g' : TGraph)
      (pending' : List (Nat × Nat)),
      fillLoop pm v fuel pending g = some (g', pending') →
      ∀ i, bagOf g i ⊆ bagOf g' i := by
  intro fuel
  induction fuel with
  | zero =>
    intro pending g g' pending' h i
    rw [fillLoop] at h
    split at h
    · cases h
      exact Finset.Subset.refl _
    · cases h
  | succ fuel ih =>
    intro pending g g' pending' h i
    rw [fillLoop] at h
    split at h
    · cases h
      exact Finset.Subset.refl _
    · split at h
      · cases h
        exact Finset.Subset.refl _
      · rename_i current rest
        split at h
        · cases h
        · rename_i g₁ hg₁
          split at h
          · exact (extendBag_mono hg₁ i).trans (ih _ _ _ _ h i)
          · exact (extendBag_mono hg₁ i).trans (ih _ _ _ _ h i)

/-- One structural per-vertex fill never shrinks a bag. -/
theorem fill_bags_until_common_predecessor_mono {g g' : TGraph}
    {pm : List (Nat × Nat × Nat)} {v : Nat} {s : List Nat}
    (h : fill_bags_until_common_predecessor g pm v s = some g') :
    ∀ i, bagOf g i ⊆ bagOf g' i := by
  simp only [fill_bags_until_common_predecessor] at h
  split at h
  · cases h
  · rename_i opt g₁ pending₁ hloop
    split at h
    · cases h
      exact fillLoop_mono pm v _ _ _ _ _ hloop
    · intro i
      exact (fillLoop_mono pm v _ _ _ _ _ hloop i).trans (extendBag_mono h i)

/-- C4: throughout path filling bags only grow: every node's bag before a
completed call to `fill_bags_along_paths` or to
`fill_bags_along_paths_using_structure` is a subset of its bag after. -/
theorem fill_bags_monotone (g g₁ g₂ : TGraph) (pm : List (Nat × Nat × Nat))
    (clique_graph_map : List (Nat × List Nat)) :
    (fill_bags_along_paths g = some g₁ → ∀ i, bagOf g i ⊆ bagOf g₁ i) ∧
    (fill_bags_along_paths_using_structure g clique_graph_map = some (g₂, pm) →
      ∀ i, bagOf g i ⊆ bagOf g₂ i) := by
  constructor
  · intro h
    exact foldlM_bagOf_mono (fun g a g' ha => processPair_mono ha) _ g g₁ h
  · intro h
    unfold fill_bags_along_paths_using_structure at h
    split at h
    · cases h
    · split at h
      · cases h
      · split at h
        · cases h
        · rename_i pm₀ _ g' hfold
          simp only [Option.some.injEq, Prod.mk.injEq] at h
          obtain ⟨rfl, rfl⟩ := h
          exact foldlM_bagOf_mono
            (fun g a g' ha => fill_bags_until_common_predecessor_mono ha) _ _ _ hfold

/-- Witness for C4: the pairwise filler on `pathThree` and the structural
filler on `pathThreeBags`, both of which really grow the middle bag. -/
theorem fill_bags_monotone_witness :
    (∀ i, bagOf pathThree i ⊆ bagOf pathThreeFilled i) ∧
    (∀ i, bagOf pathThreeBags i ⊆ bagOf pathThreeBagsFilled i) :=
  ⟨(fill_bags_monotone pathThree pathThreeFilled pathThreeBagsFilled
      [(2, 1, 0), (0, 1, 0)] (cliqueGraphMapOf pathThreeBags [7])).1 (by rfl),
   (fill_bags_monotone pathThreeBags pathThreeFilled pathThreeBagsFilled
      [(2, 1, 0), (0, 1, 0)] (cliqueGraphMapOf pathThreeBags [7])).2 (by rfl)⟩

/-! ## The structural walk: predecessor-chain lemmas -/
/-- In a well-formed map, each entry's stored index is its predecessor's
walker level. -/
theorem wf_lookup {pm : List (Nat × Nat × Nat)} {root v p : Nat} {idx : Nat}
    (hwf : PMWf pm root) (h : pm.lookup v = some (p, idx)) : wlv pm p = idx :=
  hwf.2 (v, p, idx) (lookup_mem h)

/-- A node with an entry sits one level above its predecessor. -/
theorem wlv_of_lookup {pm : List (Nat × Nat × Nat)} {v p : Nat} {idx : Nat}
    (h : pm.lookup v = some (p, idx)) : wlv pm v = idx + 1 := by
  simp [wlv, h]

/-- A node without an entry is at level `0`. -/
theorem wlv_of_lookup_none {pm : List (Nat × Nat × Nat)} {v : Nat}
    (h : pm.lookup v = none) : wlv pm v = 0 := by
  simp [wlv, h]

/-- Level `0` means no entry. -/
theorem lookup_none_of_wlv_zero {pm : List (Nat × Nat × Nat)} {v : Nat}
    (h : wlv pm v = 0) : pm.lookup v = none := by
  unfold wlv at h
  cases hl : pm.lookup v with
  | none => rfl
  | some pi => rw [hl] at h; cases h

/-- Every chain starts at its node. -/
theorem ancChain_self (pm : List (Nat × Nat × Nat)) (v : Nat) : v ∈ ancChain pm v := by
  unfold ancChain
  cases h : wlv pm v with
  | zero => simp [ancChainAux]
  | succ k =>
    unfold ancChainAux
    cases pm.lookup v <;> simp

/-- The chain of an entry-less node is a singleton. -/
theorem ancChain_none {pm : List (Nat × Nat × Nat)} {v : Nat}
    (h : pm.lookup v = none) : ancChain pm v = [v] := by
  unfold ancChain
  rw [wlv_of_lookup_none h]
  rfl

/-- In a well-formed map the chain of a node with an entry is the node
followed by its predecessor's chain. -/
theorem ancChain_cons {pm : List (Nat × Nat × Nat)} {root v p : Nat} {idx : Nat}
    (hwf : PMWf pm root) (h : pm.lookup v = some (p, idx)) :
    ancChain pm v = v :: ancChain pm p := by
  unfold ancChain
  rw [wlv_of_lookup h, wf_lookup hwf h]
  show ancChainAux pm (idx + 1) v = v :: ancChainAux pm idx p
  rw [ancChainAux, h]

/-- Chain members sit at lower levels; the level is attained only by the
chain's head. -/
theorem mem_ancChain_wlv {pm : List (Nat × Nat × Nat)} {root : Nat}
    (hwf : PMWf pm root) :
    ∀ (k v n : Nat), wlv pm v = k → n ∈ ancChain pm v →
      wlv pm n ≤ k ∧ (wlv pm n = k → n = v) := by
  intro k
  induction k using Nat.strong_induction_on with
  | _ k ih =>
    intro v n hk hn
    cases h : pm.lookup v with
    | none =>
      rw [ancChain_none h] at hn
      simp only [List.mem_singleton] at hn
      subst hn
      exact ⟨le_of_eq hk, fun _ => rfl⟩
    | some pi =>
      obtain ⟨p, idx⟩ := pi
      rw [ancChain_cons hwf h] at hn
      rcases List.mem_cons.mp hn with rfl | hn'
      · exact ⟨le_of_eq hk, fun _ => rfl⟩
      · have hwp : wlv pm p = idx := wf_lookup hwf h
        have hkv : k = idx + 1 := by rw [← hk, wlv_of_lookup h]
        have hlt : idx < k := by omega
        obtain ⟨hle, -⟩ := ih idx hlt p n hwp hn'
        exact ⟨by omega, fun he => by omega⟩

/-- Chains are closed under taking chains of members. -/
theorem mem_ancChain_sub {pm : List (Nat × Nat × Nat)} {root : Nat}
    (hwf : PMWf pm root) :
    ∀ (k v n : Nat), wlv pm v = k → n ∈ ancChain pm v →
      ∀ x ∈ ancChain pm n, x ∈ ancChain pm v := by
  intro k
  induction k using Nat.strong_induction_on with
  | _ k ih =>
    intro v n hk hn x hx
    cases h : pm.lookup v with
    | none =>
      rw [ancChain_none h] at hn
      simp only [List.mem_singleton] at hn
      subst hn
      exact hx
    | some pi =>
      obtain ⟨p, idx⟩ := pi
      rcases List.mem_cons.mp ((ancChain_cons hwf h) ▸ hn) with rfl | hn'
      · exact hx
      · have hwp : wlv pm p = idx := wf_lookup hwf h
        have hkv : k = idx + 1 := by rw [← hk, wlv_of_lookup h]
        have := ih idx (by omega) p n hwp hn' x hx
        rw [ancChain_cons hwf h]
        exact List.mem_cons_of_mem v this

/-- The predecessor of a chain member is a chain member. -/
theorem parent_mem_ancChain {pm : List (Nat × Nat × Nat)} {root v n p : Nat} {idx : Nat}
    (hwf : PMWf pm root) (hn : n ∈ ancChain pm v) (h : pm.lookup n = some (p, idx)) :
    p ∈ ancChain pm v := by
  have hp : p ∈ ancChain pm n := by
    rw [ancChain_cons hwf h]
    exact List.mem_cons_of_mem n (ancChain_self pm p)
  exact mem_ancChain_sub hwf (wlv pm v) v n rfl hn p hp

/-- A chain holds at most one entry-less node. -/
theorem ancChain_none_unique {pm : List (Nat × Nat × Nat)} {root : Nat}
    (hwf : PMWf pm root) :
    ∀ (k v n m : Nat), wlv pm v = k → n ∈ ancChain pm v → pm.lookup n = none →
      m ∈ ancChain pm v → pm.lookup m = none → n = m := by
  intro k
  induction k using Nat.strong_induction_on with
  | _ k ih =>
    intro v n m hk hn hnl hm hml
    cases h : pm.lookup v with
    | none =>
      rw [ancChain_none h] at hn hm
      simp only [List.mem_singleton] at hn hm
      rw [hn, hm]
    | some pi =>
      obtain ⟨p, idx⟩ := pi
      have hwp : wlv pm p = idx := wf_lookup hwf h
      have hkv : k = idx + 1 := by rw [← hk, wlv_of_lookup h]
      rcases List.mem_cons.mp ((ancChain_cons hwf h) ▸ hn) with rfl | hn'
      · rw [h] at hnl; cases hnl
      · rcases List.mem_cons.mp ((ancChain_cons hwf h) ▸ hm) with rfl | hm'
        · rw [h] at hml; cases hml
        · exact ih idx (by omega) p n m hwp hn' hnl hm' hml

/-- The `Predecessor` order as a proposition. -/
theorem predLtb_iff (x y : Nat × Nat) :
    predLtb x y = true ↔ (x.1 < y.1 ∨ (x.1 = y.1 ∧ x.2 < y.2)) := by
  simp [predLtb]

/-- The maximum computed by `pendingPopMax`'s fold is a member that no
member exceeds. -/
theorem foldl_popMax_spec (xs : List (Nat × Nat)) :
    ∀ x : Nat × Nat,
      (xs.foldl (fun best y => if predLtb best y then y else best) x) ∈ x :: xs ∧
      ∀ y ∈ x :: xs,
        predLtb (xs.foldl (fun best y => if predLtb best y then y else best) x) y = false := by
  induction xs with
  | nil =>
    intro x
    simp only [List.foldl_nil]
    refine ⟨List.mem_singleton_self x, ?_⟩
    intro y hy
    rw [List.mem_singleton] at hy
    subst hy
    rw [← Bool.not_eq_true, predLtb_iff]
    omega
  | cons a xs ih =>
    intro x
    rw [List.foldl_cons]
    by_cases hxa : predLtb x a = true
    · rw [if_pos hxa]
      obtain ⟨hmem, hmax⟩ := ih a
      rw [predLtb_iff] at hxa
      refine ⟨?_, ?_⟩
      · rcases List.mem_cons.mp hmem with h | h
        · rw [h]
          exact List.mem_cons_of_mem x (List.mem_cons_self a xs)
        · exact List.mem_cons_of_mem x (List.mem_cons_of_mem a h)
      · intro y hy
        rcases List.mem_cons.mp hy with rfl | hy'
        · have hra := hmax a (List.mem_cons_self a xs)
          rw [← Bool.not_eq_true, predLtb_iff] at hra ⊢
          omega
        · exact hmax y hy'
    · rw [if_neg hxa]
      obtain ⟨hmem, hmax⟩ := ih x
      rw [predLtb_iff] at hxa
      refine ⟨?_, ?_⟩
      · rcases List.mem_cons.mp hmem with h | h
        · rw [h]
          exact List.mem_cons_self x _
        · exact List.mem_cons_of_mem x (List.mem_cons_of_mem a h)
      · intro y hy
        rcases List.mem_cons.mp hy with rfl | hy'
        · exact hmax y (List.mem_cons_self y xs)
        · rcases List.mem_cons.mp hy' with rfl | hy''
          · have hrx := hmax x (List.mem_cons_self x xs)
            rw [← Bool.not_eq_true, predLtb_iff] at hrx ⊢
            omega
          · exact hmax y (List.mem_cons_of_mem x hy'')

/-- Inversion for `pendingPopMax`. -/
theorem pendingPopMax_spec {pending : List (Nat × Nat)} {m : Nat × Nat}
    {rest : List (Nat × Nat)} (h : pendingPopMax pending = some (m, rest)) :
    m ∈ pending ∧ rest = pending.filter (fun y => y ≠ m) ∧
      ∀ y ∈ pending, predLtb m y = false := by
  cases pending with
  | nil => cases h
  | cons x xs =>
    simp only [pendingPopMax, Option.some.injEq, Prod.mk.injEq] at h
    obtain ⟨rfl, rfl⟩ := h
    obtain ⟨hmem, hmax⟩ := foldl_popMax_spec xs x
    exact ⟨hmem, rfl, hmax⟩

/-- Membership in `pendingInsert`. -/
theorem pendingInsert_mem {x y : Nat × Nat} {l : List (Nat × Nat)} :
    y ∈ pendingInsert x l ↔ (y = x ∨ y ∈ l) := by
  unfold pendingInsert
  split
  · rename_i hx
    constructor
    · exact Or.inr
    · rintro (rfl | hy)
      · exact hx
      · exact hy
  · exact List.mem_cons

/-- `pendingInsert` preserves distinctness. -/
theorem pendingInsert_nodup {x : Nat × Nat} {l : List (Nat × Nat)} (h : l.Nodup) :
    (pendingInsert x l).Nodup := by
  unfold pendingInsert
  split
  · exact h
  · rename_i hx
    exact List.nodup_cons.mpr ⟨hx, h⟩

/-- Elements of the walk's initial pending set: one entry `(wlv w, w)` per
iterated clique-graph-map member `w`. -/
theorem initPending_mem (pm : List (Nat × Nat × Nat)) :
    ∀ (ws : List Nat) (acc : List (Nat × Nat)) (e : Nat × Nat),
      (e ∈ ws.foldl (fun acc w =>
          match pm.lookup w with
          | some (_, index) => pendingInsert (index + 1, w) acc
          | none => pendingInsert (0, w) acc) acc ↔
        (e ∈ acc ∨ ∃ w ∈ ws, e = (wlv pm w, w))) := by
  intro ws
  induction ws with
  | nil =>
    intro acc e
    simp
  | cons w ws ih =>
    intro acc e
    rw [List.foldl_cons, ih]
    cases hw : pm.lookup w with
    | some pi =>
      obtain ⟨p, idx⟩ := pi
      have hwl : wlv pm w = idx + 1 := wlv_of_lookup hw
      simp only [hw, pendingInsert_mem, List.mem_cons, hwl]
      constructor
      · rintro ((rfl | he) | ⟨w', hw', rfl⟩)
        · exact Or.inr ⟨w, Or.inl rfl, by rw [hwl]⟩
        · exact Or.inl he
        · exact Or.inr ⟨w', Or.inr hw', rfl⟩
      · rintro (he | ⟨w', (rfl | hw'), rfl⟩)
        · exact Or.inl (Or.inr he)
        · exact Or.inl (Or.inl (by rw [hwl]))
        · exact Or.inr ⟨w', hw', rfl⟩
    | none =>
      have hwl : wlv pm w = 0 := wlv_of_lookup_none hw
      simp only [hw, pendingInsert_mem, List.mem_cons, hwl]
      constructor
      · rintro ((rfl | he) | ⟨w', hw', rfl⟩)
        · exact Or.inr ⟨w, Or.inl rfl, by rw [hwl]⟩
        · exact Or.inl he
        · exact Or.inr ⟨w', Or.inr hw', rfl⟩
      · rintro (he | ⟨w', (rfl | hw'), rfl⟩)
        · exact Or.inl (Or.inr he)
        · exact Or.inl (Or.inl (by rw [hwl]))
        · exact Or.inr ⟨w', hw', rfl⟩

/-- The walk's initial pending set is duplicate-free. -/
theorem initPending_nodup (pm : List (Nat × Nat × Nat)) :
    ∀ (ws : List Nat) (acc : List (Nat × Nat)), acc.Nodup →
      (ws.foldl (fun acc w =>
          match pm.lookup w with
          | some (_, index) => pendingInsert (index + 1, w) acc
          | none => pendingInsert (0, w) acc) acc).Nodup := by
  intro ws
  induction ws with
  | nil => intro acc h; exact h
  | cons w ws ih =>
    intro acc h
    rw [List.foldl_cons]
    cases hw : pm.lookup w with
    | some pi =>
      obtain ⟨p, idx⟩ := pi
      simp only [hw]
      exact ih _ (pendingInsert_nodup h)
    | none =>
      simp only [hw]
      exact ih _ (pendingInsert_nodup h)

/-- Membership in the chain union. -/
theorem mem_ancU {pm : List (Nat × Nat × Nat)} {pending : List (Nat × Nat)} {n : Nat} :
    n ∈ ancU pm pending ↔ ∃ e ∈ pending, n ∈ ancChain pm e.2 := by
  unfold ancU pendNodes
  simp only [Finset.mem_biUnion, List.mem_toFinset, List.mem_map]
  constructor
  · rintro ⟨m, ⟨e, he, rfl⟩, hn⟩
    exact ⟨e, he, hn⟩
  · rintro ⟨e, he, hn⟩
    exact ⟨e.2, ⟨e, he, rfl⟩, hn⟩

/-- The central loop characterisation: a completed walk pops walkers
deepest-first, marks exactly the chain-union difference with `v`, and its
invariant survives. -/
theorem fillLoop_spec {pm : List (Nat × Nat × Nat)} {root : Nat} (v : Nat) {S : List Nat}
    (hwf : PMWf pm root) (hreach : ∀ s ∈ S, root ∈ ancChain pm s) :
    ∀ (fuel : Nat) (pending : List (Nat × Nat)) (g g' : TGraph)
      (pending' : List (Nat × Nat)),
      WalkInv pm S pending →
      fillLoop pm v fuel pending g = some (g', pending') →
      pending'.length ≤ 1 ∧ WalkInv pm S pending' ∧
        ancU pm pending' ⊆ ancU pm pending ∧
        ∀ n, v ∈ bagOf g' n ↔ (v ∈ bagOf g n ∨ n ∈ ancU pm pending \ ancU pm pending') := by
  intro fuel
  induction fuel with
  | zero =>
    intro pending g g' pending' hinv h
    rw [fillLoop] at h
    split at h
    · rename_i hlen
      simp only [Option.some.injEq, Prod.mk.injEq] at h
      obtain ⟨rfl, rfl⟩ := h
      exact ⟨hlen, hinv, Finset.Subset.refl _, fun n => by simp⟩
    · cases h
  | succ fuel ih =>
    intro pending g g' pending' hinv h
    rw [fillLoop] at h
    split at h
    · rename_i hlen
      simp only [Option.some.injEq, Prod.mk.injEq] at h
      obtain ⟨rfl, rfl⟩ := h
      exact ⟨hlen, hinv, Finset.Subset.refl _, fun n => by simp⟩
    · rename_i hlen
      have hlen1 : 1 < pending.length := not_le.mp hlen
      split at h
      · rename_i hpop
        have hnil : pending = [] := by
          cases pending with
          | nil => rfl
          | cons x xs => simp [pendingPopMax] at hpop
        rw [hnil] at hlen1
        simp at hlen1
      · rename_i cur rest hpop
        obtain ⟨hcur_mem, hrest, hmax⟩ := pendingPopMax_spec hpop
        have hcur_lv : cur.1 = wlv pm cur.2 := hinv.lv cur hcur_mem
        -- a second pending element, different from the popped maximum
        have hsecond : ∃ y ∈ pending, y ≠ cur := by
          cases pending with
          | nil => simp at hlen1
          | cons a t =>
            cases t with
            | nil => simp at hlen1
            | cons b t' =>
              by_cases hac : a = cur
              · refine ⟨b, List.mem_cons_of_mem a (List.mem_cons_self b t'), ?_⟩
                intro hbc
                have hnd := hinv.nodup
                rw [hac, hbc] at hnd
                simp at hnd
              · exact ⟨a, List.mem_cons_self a _, hac⟩
        -- any other pending entry sits at or below the popped level
        have hother : ∀ y ∈ pending, y ≠ cur →
            wlv pm y.2 ≤ wlv pm cur.2 ∧ (wlv pm y.2 = wlv pm cur.2 → y.2 ≤ cur.2) := by
          intro y hy hyne
          have hmy := hmax y hy
          rw [← Bool.not_eq_true, predLtb_iff] at hmy
          have hylv : y.1 = wlv pm y.2 := hinv.lv y hy
          constructor
          · omega
          · omega
        -- membership in pending splits into the popped element and the rest
        have hpend_mem : ∀ e, e ∈ pending ↔ (e = cur ∨ e ∈ rest) := by
          intro e
          constructor
          · intro he
            by_cases hec : e = cur
            · exact Or.inl hec
            · refine Or.inr ?_
              rw [hrest]
              exact List.mem_filter.mpr ⟨he, by simp [hec]⟩
          · rintro (rfl | he)
            · exact hcur_mem
            · rw [hrest] at he
              exact (List.mem_filter.mp he).1
        -- a distinct pending entry cannot hold the popped node on its chain
        have hnot_above : ∀ y ∈ pending, y ≠ cur → cur.2 ∉ ancChain pm y.2 := by
          intro y hy hyne hmem
          obtain ⟨hle, heq⟩ :=
            mem_ancChain_wlv hwf (wlv pm y.2) y.2 cur.2 rfl hmem
          obtain ⟨hle', heq'⟩ := hother y hy hyne
          have hlv_eq : wlv pm cur.2 = wlv pm y.2 := le_antisymm hle hle'
          have hnode : cur.2 = y.2 := heq hlv_eq
          have hylv : y.1 = wlv pm y.2 := hinv.lv y hy
          apply hyne
          have h1 : y.1 = cur.1 := by rw [hylv, hcur_lv, hnode]
          have h2 : y.2 = cur.2 := hnode.symm
          exact Prod.ext_iff.mpr ⟨h1, h2⟩
        -- the popped node cannot be an entry-less node
        have hpar : pm.lookup cur.2 ≠ none := by
          intro hlk
          obtain ⟨y, hy, hyne⟩ := hsecond
          have hc0 : wlv pm cur.2 = 0 := wlv_of_lookup_none hlk
          obtain ⟨hle', -⟩ := hother y hy hyne
          have hy0 : wlv pm y.2 = 0 := by omega
          have hylk : pm.lookup y.2 = none := lookup_none_of_wlv_zero hy0
          obtain ⟨sc, hsc, hcmem⟩ := hinv.inA cur hcur_mem
          obtain ⟨sy, hsy, hymem⟩ := hinv.inA y hy
          have hcroot : cur.2 = root :=
            ancChain_none_unique hwf (wlv pm sc) sc cur.2 root rfl hcmem hlk
              (hreach sc hsc) hwf.1
          have hyroot : y.2 = root :=
            ancChain_none_unique hwf (wlv pm sy) sy y.2 root rfl hymem hylk
              (hreach sy hsy) hwf.1
          apply hyne
          have h1 : y.1 = cur.1 := by
            rw [hinv.lv y hy, hinv.lv cur hcur_mem, hyroot, hcroot]
          have h2 : y.2 = cur.2 := by rw [hyroot, hcroot]
          exact Prod.ext_iff.mpr ⟨h1, h2⟩
        split at h
        · cases h
        · rename_i g₁ hg₁
          split at h
          · rename_i p idx hlk
            have hidx : wlv pm p = idx := wf_lookup hwf hlk
            have hchainc : ancChain pm cur.2 = cur.2 :: ancChain pm p :=
              ancChain_cons hwf hlk
            set rest' := pendingInsert (idx, p) rest with hrest'
            have hrest_sub : ∀ e, e ∈ rest → e ∈ pending := fun e he =>
              (hpend_mem e).mpr (Or.inr he)
            have hrest_ne : ∀ e, e ∈ rest → e ≠ cur := by
              intro e he
              rw [hrest] at he
              have := (List.mem_filter.mp he).2
              simpa using this
            have hrest'_mem : ∀ e, e ∈ rest' ↔ (e = (idx, p) ∨ e ∈ rest) :=
              fun e => pendingInsert_mem
            have hinv' : WalkInv pm S rest' := by
              refine ⟨?_, ?_, ?_, ?_, ?_⟩
              · exact pendingInsert_nodup (hrest ▸ hinv.nodup.filter _)
              · intro e he
                rcases (hrest'_mem e).mp he with rfl | he'
                · exact hidx.symm
                · exact hinv.lv e (hrest_sub e he')
              · intro e he
                rcases (hrest'_mem e).mp he with rfl | he'
                · obtain ⟨s, hs, hmem⟩ := hinv.inA cur hcur_mem
                  exact ⟨s, hs, parent_mem_ancChain hwf hmem hlk⟩
                · exact hinv.inA e (hrest_sub e he')
              · intro s hs
                obtain ⟨e₀, he₀, hs₀⟩ := hinv.rep s hs
                by_cases he₀c : e₀ = cur
                · refine ⟨(idx, p), (hrest'_mem _).mpr (Or.inl rfl), ?_⟩
                  rw [he₀c] at hs₀
                  exact parent_mem_ancChain hwf hs₀ hlk
                · refine ⟨e₀, (hrest'_mem _).mpr (Or.inr ?_), hs₀⟩
                  rw [hrest]
                  exact List.mem_filter.mpr ⟨he₀, by simp [he₀c]⟩
              · intro d hd e he
                rcases (hrest'_mem e).mp he with rfl | he'
                · have hdc : d ∈ ancChain pm cur.2 := hinv.common d hd cur hcur_mem
                  rw [hchainc] at hdc
                  rcases List.mem_cons.mp hdc with rfl | hdp
                  · exfalso
                    obtain ⟨y, hy, hyne⟩ := hsecond
                    exact hnot_above y hy hyne (hinv.common cur.2 hd y hy)
                  · exact hdp
                · exact hinv.common d hd e (hrest_sub e he')
            have hcur_not : cur.2 ∉ ancU pm rest' := by
              rw [mem_ancU]
              rintro ⟨e, he, hmem⟩
              rcases (hrest'_mem e).mp he with rfl | he'
              · obtain ⟨hle, -⟩ :=
                  mem_ancChain_wlv hwf (wlv pm p) p cur.2 rfl hmem
                have : wlv pm cur.2 = idx + 1 := wlv_of_lookup hlk
                omega
              · exact hnot_above e (hrest_sub e he') (hrest_ne e he') hmem
            have hU : ∀ n, n ∈ ancU pm pending ↔ (n = cur.2 ∨ n ∈ ancU pm rest') := by
              intro n
              rw [mem_ancU]
              constructor
              · rintro ⟨e, he, hmem⟩
                rcases (hpend_mem e).mp he with rfl | he'
                · rw [hchainc] at hmem
                  rcases List.mem_cons.mp hmem with rfl | hmem'
                  · exact Or.inl rfl
                  · exact Or.inr
                      (mem_ancU.mpr ⟨(idx, p), (hrest'_mem _).mpr (Or.inl rfl), hmem'⟩)
                · exact Or.inr (mem_ancU.mpr ⟨e, (hrest'_mem _).mpr (Or.inr he'), hmem⟩)
              · rintro (rfl | hn)
                · exact ⟨cur, hcur_mem, ancChain_self pm cur.2⟩
                · obtain ⟨e, he, hmem⟩ := mem_ancU.mp hn
                  rcases (hrest'_mem e).mp he with rfl | he'
                  · refine ⟨cur, hcur_mem, ?_⟩
                    rw [hchainc]
                    exact List.mem_cons_of_mem _ hmem
                  · exact ⟨e, hrest_sub e he', hmem⟩
            obtain ⟨hlen', hinv'', hsub', hiff'⟩ := ih rest' g₁ g' pending' hinv' h
            obtain ⟨-, hbag₁, hoth₁⟩ := extendBag_bagOf hg₁
            refine ⟨hlen', hinv'', ?_, ?_⟩
            · intro n hn
              rw [hU n]
              exact Or.inr (hsub' hn)
            · intro n
              rw [hiff' n]
              have hg₁n : v ∈ bagOf g₁ n ↔ (v ∈ bagOf g n ∨ n = cur.2) := by
                by_cases hnc : n = cur.2
                · subst hnc
                  rw [hbag₁]
                  simp
                · rw [hoth₁ n hnc]
                  simp [hnc]
              rw [hg₁n]
              simp only [Finset.mem_sdiff]
              constructor
              · rintro ((hv | rfl) | ⟨hn1, hn2⟩)
                · exact Or.inl hv
                · refine Or.inr ⟨(hU _).mpr (Or.inl rfl), ?_⟩
                  intro hmem
                  exact hcur_not (hsub' hmem)
                · exact Or.inr ⟨(hU n).mpr (Or.inr hn1), hn2⟩
              · rintro (hv | ⟨hn1, hn2⟩)
                · exact Or.inl (Or.inl hv)
                · rcases (hU n).mp hn1 with rfl | hn1'
                  · exact Or.inl (Or.inr rfl)
                  · exact Or.inr ⟨hn1', hn2⟩
          · rename_i hlk
            exact absurd hlk hpar

/-- C3: for a vertex `v` whose clique-graph-map entry `S` (the tree nodes
whose bags contain `v`) has more than one element, a completed
`fill_bags_until_common_predecessor` call walks the members of `S` up a
well-formed predecessor map until they meet at the deepest common
ancestor `c`, and afterwards `v` lies in exactly the bags that already
held it plus every bag on the walks from `S` up to `c` — the bag of `c`
included, the starting nodes of `S` excluded (they already hold `v`). -/
theorem fill_bags_until_common_predecessor_spec
    (pm : List (Nat × Nat × Nat)) (root v : Nat) (S : List Nat) (g g' : TGraph)
    (hwf : PMWf pm root)
    (hreach : ∀ s ∈ S, root ∈ ancChain pm s)
    (hlen : 1 < S.length)
    (hS : ∀ s ∈ S, v ∈ bagOf g s)
    (hrun : fill_bags_until_common_predecessor g pm v S = some g') :
    ∃ c, (∀ s ∈ S, c ∈ ancChain pm s) ∧
      (∀ d, (∀ s ∈ S, d ∈ ancChain pm s) → d ∈ ancChain pm c) ∧
      v ∈ bagOf g' c ∧
      (∀ n, v ∈ bagOf g' n ↔ (v ∈ bagOf g n ∨
        n ∈ (S.toFinset.biUnion fun s =>
          (ancChain pm s).toFinset \ ((ancChain pm c).toFinset \ {c})) \ S.toFinset)) := by
  simp only [fill_bags_until_common_predecessor] at hrun
  rw [if_pos hlen] at hrun
  set pending₀ := S.foldl (fun acc w =>
      match pm.lookup w with
      | some (_, index) => pendingInsert (index + 1, w) acc
      | none => pendingInsert (0, w) acc) [] with hpend₀
  have hmem₀ : ∀ e, e ∈ pending₀ ↔ ∃ w ∈ S, e = (wlv pm w, w) := by
    intro e
    rw [hpend₀, initPending_mem]
    simp
  have hinv₀ : WalkInv pm S pending₀ := by
    refine ⟨?_, ?_, ?_, ?_, ?_⟩
    · rw [hpend₀]
      exact initPending_nodup pm S [] List.nodup_nil
    · intro e he
      obtain ⟨w, -, rfl⟩ := (hmem₀ e).mp he
      rfl
    · intro e he
      obtain ⟨w, hw, rfl⟩ := (hmem₀ e).mp he
      exact ⟨w, hw, ancChain_self pm w⟩
    · intro s hs
      exact ⟨(wlv pm s, s), (hmem₀ _).mpr ⟨s, hs, rfl⟩, ancChain_self pm s⟩
    · intro d hd e he
      obtain ⟨w, hw, rfl⟩ := (hmem₀ e).mp he
      exact hd w hw
  cases hloop : fillLoop pm v (pendingMeasure pending₀ + 1) pending₀ g with
  | none =>
    rw [hloop] at hrun
    exact Option.noConfusion hrun
  | some gp =>
    obtain ⟨g₁, pending₁⟩ := gp
    rw [hloop] at hrun
    obtain ⟨hlen₁, hinv₁, hsub₁, hiff₁⟩ :=
      fillLoop_spec v hwf hreach _ pending₀ g g₁ pending₁ hinv₀ hloop
    have hS0 : ∃ s, s ∈ S := by
      cases S with
      | nil => simp at hlen
      | cons a t => exact ⟨a, List.mem_cons_self a t⟩
    obtain ⟨s₀, hs₀⟩ := hS0
    obtain ⟨e_c, he_c, hcs₀⟩ := hinv₁.rep s₀ hs₀
    have hone : pending₁ = [e_c] := by
      cases pending₁ with
      | nil => cases he_c
      | cons a t =>
        cases t with
        | nil =>
          rw [List.mem_singleton] at he_c
          rw [he_c]
        | cons b t' => simp at hlen₁
    subst hone
    change extendBag g₁ e_c.2 {v} = some g' at hrun
    obtain ⟨-, hbagc, hothc⟩ := extendBag_bagOf hrun
    have hcommon : ∀ s ∈ S, e_c.2 ∈ ancChain pm s := by
      intro s hs
      obtain ⟨e, he, hmem⟩ := hinv₁.rep s hs
      rw [List.mem_singleton] at he
      rw [← he]
      exact hmem
    have hA : ∀ n, n ∈ ancU pm pending₀ ↔ ∃ s ∈ S, n ∈ ancChain pm s := by
      intro n
      rw [mem_ancU]
      constructor
      · rintro ⟨e, he, hmem⟩
        obtain ⟨w, hw, rfl⟩ := (hmem₀ e).mp he
        exact ⟨w, hw, hmem⟩
      · rintro ⟨s, hs, hmem⟩
        exact ⟨(wlv pm s, s), (hmem₀ _).mpr ⟨s, hs, rfl⟩, hmem⟩
    have hC : ∀ n, n ∈ ancU pm [e_c] ↔ n ∈ ancChain pm e_c.2 := by
      intro n
      rw [mem_ancU]
      constructor
      · rintro ⟨e, he, hmem⟩
        rw [List.mem_singleton] at he
        rw [← he]
        exact hmem
      · intro hmem
        exact ⟨e_c, List.mem_singleton_self _, hmem⟩
    refine ⟨e_c.2, hcommon, ?_, ?_, ?_⟩
    · intro d hd
      exact hinv₁.common d hd e_c (List.mem_singleton_self _)
    · rw [hbagc]
      simp
    · intro n
      have hg'n : v ∈ bagOf g' n ↔ (v ∈ bagOf g₁ n ∨ n = e_c.2) := by
        by_cases hnc : n = e_c.2
        · subst hnc
          rw [hbagc]
          simp
        · rw [hothc n hnc]
          simp [hnc]
      rw [hg'n, hiff₁ n]
      simp only [Finset.mem_sdiff, Finset.mem_biUnion, List.mem_toFinset,
        Finset.mem_singleton, not_and, not_not]
      constructor
      · rintro ((hv | ⟨h₀, h₁⟩) | rfl)
        · exact Or.inl hv
        · by_cases hnS : n ∈ S
          · exact Or.inl (hS n hnS)
          · obtain ⟨s, hs, hns⟩ := (hA n).mp h₀
            refine Or.inr ⟨⟨s, hs, hns, ?_⟩, hnS⟩
            intro hmemc
            exact absurd ((hC n).mpr hmemc) h₁
          -- n is on a chain of S but not on the ancestor's chain
        · by_cases hnS : e_c.2 ∈ S
          · exact Or.inl (hS _ hnS)
          · refine Or.inr ⟨⟨s₀, hs₀, hcommon s₀ hs₀, fun h => rfl⟩, hnS⟩
      · rintro (hv | ⟨⟨s, hs, hns, hnotstrict⟩, hnS⟩)
        · exact Or.inl (Or.inl hv)
        · by_cases hnc : n = e_c.2
          · exact Or.inr hnc
          · refine Or.inl (Or.inr ⟨(hA n).mpr ⟨s, hs, hns⟩, ?_⟩)
            intro hmem
            exact hnc (hnotstrict ((hC n).mp hmem))

/-- Witness for C3: the three-node path `0 – 1 – 2` rooted at `1`, vertex
`7` contained in the two leaf bags; the walk meets at the root, whose bag
receives `7`. -/
theorem fill_bags_until_common_predecessor_spec_witness :
    ∃ c, (∀ s ∈ [0, 2], c ∈ ancChain pathThreePM s) ∧
      (∀ d, (∀ s ∈ [0, 2], d ∈ ancChain pathThreePM s) → d ∈ ancChain pathThreePM c) ∧
      7 ∈ bagOf pathThreeBagsFilled c ∧
      (∀ n, 7 ∈ bagOf pathThreeBagsFilled n ↔ (7 ∈ bagOf pathThreeBags n ∨
        n ∈ (([0, 2] : List Nat).toFinset.biUnion fun s =>
          (ancChain pathThreePM s).toFinset \ ((ancChain pathThreePM c).toFinset \ {c})) \
            ([0, 2] : List Nat).toFinset)) :=
  fill_bags_until_common_predecessor_spec pathThreePM 1 7 [0, 2]
    pathThreeBags pathThreeBagsFilled (by decide) (by decide) (by decide) (by decide) (by rfl)

/-! ## Meets of predecessor chains -/
/-- Two nodes each on the other's chain are equal. -/
theorem ancChain_antisymm {pm : List (Nat × Nat × Nat)} {root a b : Nat}
    (hwf : PMWf pm root) (hab : a ∈ ancChain pm b) (hba : b ∈ ancChain pm a) : a = b := by
  obtain ⟨h₁, he₁⟩ := mem_ancChain_wlv hwf (wlv pm b) b a rfl hab
  obtain ⟨h₂, -⟩ := mem_ancChain_wlv hwf (wlv pm a) a b rfl hba
  exact he₁ (le_antisymm h₁ h₂)

/-- Two members of one chain are comparable. -/
theorem ancChain_comparable {pm : List (Nat × Nat × Nat)} {root : Nat}
    (hwf : PMWf pm root) :
    ∀ (k x a b : Nat), wlv pm x = k → a ∈ ancChain pm x → b ∈ ancChain pm x →
      a ∈ ancChain pm b ∨ b ∈ ancChain pm a := by
  intro k
  induction k using Nat.strong_induction_on with
  | _ k ih =>
    intro x a b hk ha hb
    cases h : pm.lookup x with
    | none =>
      rw [ancChain_none h] at ha hb
      simp only [List.mem_singleton] at ha hb
      rw [ha, hb]
      exact Or.inl (ancChain_self pm x)
    | some pi =>
      obtain ⟨p, idx⟩ := pi
      have hwp : wlv pm p = idx := wf_lookup hwf h
      have hkv : k = idx + 1 := by rw [← hk, wlv_of_lookup h]
      rcases List.mem_cons.mp ((ancChain_cons hwf h) ▸ ha) with rfl | ha'
      · exact Or.inr hb
      · rcases List.mem_cons.mp ((ancChain_cons hwf h) ▸ hb) with rfl | hb'
        · exact Or.inl ha
        · exact ih idx (by omega) p a b hwp ha' hb'

/-- The shallower of two members of one chain is an ancestor of the
deeper. -/
theorem ancChain_of_le {pm : List (Nat × Nat × Nat)} {root x a b : Nat}
    (hwf : PMWf pm root) (ha : a ∈ ancChain pm x) (hb : b ∈ ancChain pm x)
    (hle : wlv pm a ≤ wlv pm b) : a ∈ ancChain pm b := by
  rcases ancChain_comparable hwf (wlv pm x) x a b rfl ha hb with h | h
  · exact h
  · obtain ⟨h₂, he₂⟩ := mem_ancChain_wlv hwf (wlv pm a) a b rfl h
    rw [he₂ (le_antisymm h₂ hle)]
    exact ancChain_self pm a

/-- `meetAux` facts, by induction on the fuel. -/
theorem meetAux_spec {pm : List (Nat × Nat × Nat)} {root : Nat}
    (hwf : PMWf pm root) (y : Nat) (hy : root ∈ ancChain pm y) :
    ∀ (fuel x : Nat), wlv pm x < fuel → root ∈ ancChain pm x →
      meetAux pm y fuel x ∈ ancChain pm x ∧ meetAux pm y fuel x ∈ ancChain pm y ∧
        ∀ d, d ∈ ancChain pm x → d ∈ ancChain pm y → d ∈ ancChain pm (meetAux pm y fuel x) := by
  intro fuel
  induction fuel with
  | zero =>
    intro x hfuel
    omega
  | succ fuel ih =>
    intro x hfuel hx
    rw [meetAux]
    by_cases hxy : x ∈ ancChain pm y
    · rw [if_pos hxy]
      exact ⟨ancChain_self pm x, hxy, fun d hd _ => hd⟩
    · rw [if_neg hxy]
      cases hlk : pm.lookup x with
      | none =>
        rw [ancChain_none hlk] at hx
        simp only [List.mem_singleton] at hx
        subst hx
        exact absurd hy hxy
      | some pi =>
        obtain ⟨p, idx⟩ := pi
        have hwp : wlv pm p = idx := wf_lookup hwf hlk
        have hwx : wlv pm x = idx + 1 := wlv_of_lookup hlk
        have hproot : root ∈ ancChain pm p := by
          rcases List.mem_cons.mp ((ancChain_cons hwf hlk) ▸ hx) with rfl | h
          · exact absurd hy hxy
          · exact h
        obtain ⟨h₁, h₂, h₃⟩ := ih p (by omega) hproot
        refine ⟨?_, h₂, ?_⟩
        · rw [ancChain_cons hwf hlk]
          exact List.mem_cons_of_mem x h₁
        · intro d hd hdy
          rcases List.mem_cons.mp ((ancChain_cons hwf hlk) ▸ hd) with rfl | hd'
          · exact absurd hdy hxy
          · exact h₃ d hd' hdy

/-- The meet lies on both chains and every common element of the two
chains is an ancestor of it. -/
theorem meet_spec {pm : List (Nat × Nat × Nat)} {root x y : Nat}
    (hwf : PMWf pm root) (hx : root ∈ ancChain pm x) (hy : root ∈ ancChain pm y) :
    meet pm x y ∈ ancChain pm x ∧ meet pm x y ∈ ancChain pm y ∧
      ∀ d, d ∈ ancChain pm x → d ∈ ancChain pm y → d ∈ ancChain pm (meet pm x y) :=
  meetAux_spec hwf y hy (wlv pm x + 1) x (by omega) hx

/-- A node on the other chain is its own meet. -/
theorem meet_self_of_mem {pm : List (Nat × Nat × Nat)} {x y : Nat}
    (hxy : x ∈ ancChain pm y) : meet pm x y = x := by
  unfold meet
  rw [meetAux, if_pos hxy]

/-- Any node with the three meet properties is the meet. -/
theorem meet_unique {pm : List (Nat × Nat × Nat)} {root x y c : Nat}
    (hwf : PMWf pm root) (hx : root ∈ ancChain pm x) (hy : root ∈ ancChain pm y)
    (hcx : c ∈ ancChain pm x) (hcy : c ∈ ancChain pm y)
    (hdeep : ∀ d, d ∈ ancChain pm x → d ∈ ancChain pm y → d ∈ ancChain pm c) :
    meet pm x y = c := by
  obtain ⟨h₁, h₂, h₃⟩ := meet_spec hwf hx hy
  exact ancChain_antisymm hwf (hdeep _ h₁ h₂) (h₃ c hcx hcy)

/-- Meets are symmetric. -/
theorem meet_comm {pm : List (Nat × Nat × Nat)} {root x y : Nat}
    (hwf : PMWf pm root) (hx : root ∈ ancChain pm x) (hy : root ∈ ancChain pm y) :
    meet pm x y = meet pm y x := by
  obtain ⟨h₁, h₂, h₃⟩ := meet_spec hwf hy hx
  exact meet_unique hwf hx hy h₂ h₁ (fun d hdx hdy => h₃ d hdy hdx)

/-- Membership in a chain segment. -/
theorem mem_chainTo {pm : List (Nat × Nat × Nat)} {a m n : Nat} :
    n ∈ chainTo pm a m ↔ n ∈ ancChain pm a ∧ (n ∈ ancChain pm m → n = m) := by
  unfold chainTo
  simp only [Finset.mem_sdiff, List.mem_toFinset, Finset.mem_singleton, not_and, not_not]

/-- The degenerate segment from a node to itself. -/
theorem mem_chainTo_self {pm : List (Nat × Nat × Nat)} {a n : Nat} :
    n ∈ chainTo pm a a ↔ n = a := by
  rw [mem_chainTo]
  constructor
  · rintro ⟨h₁, h₂⟩
    exact h₂ h₁
  · rintro rfl
    exact ⟨ancChain_self pm _, fun _ => rfl⟩

/-- Chain membership is transitive. -/
theorem ancChain_trans {pm : List (Nat × Nat × Nat)} {root s x y : Nat}
    (hwf : PMWf pm root) (hx : x ∈ ancChain pm s) (hy : y ∈ ancChain pm x) :
    y ∈ ancChain pm s :=
  mem_ancChain_sub hwf (wlv pm s) s x rfl hx y hy

/-- A strict chain member sits at a strictly smaller level. -/
theorem wlv_lt_of_mem_ne {pm : List (Nat × Nat × Nat)} {root v n : Nat}
    (hwf : PMWf pm root) (hn : n ∈ ancChain pm v) (hne : n ≠ v) :
    wlv pm n < wlv pm v := by
  obtain ⟨h₁, h₂⟩ := mem_ancChain_wlv hwf (wlv pm v) v n rfl hn
  rcases lt_or_eq_of_le h₁ with h | h
  · exact h
  · exact absurd (h₂ h) hne

/-- The root is on the chain of every chain member of a node the root
reaches. -/
theorem reach_of_mem {pm : List (Nat × Nat × Nat)} {root s x : Nat}
    (hwf : PMWf pm root) (hroot : pm.lookup root = none)
    (hs : root ∈ ancChain pm s) (hx : x ∈ ancChain pm s) :
    root ∈ ancChain pm x := by
  refine ancChain_of_le hwf hs hx ?_
  rw [wlv_of_lookup_none hroot]
  exact Nat.zero_le _

/-- The ends of a list. -/
theorem mem_of_getLastOpt {α : Type} {l : List α} {a : α} (h : l.getLast? = some a) :
    a ∈ l := by
  obtain ⟨hne, heq⟩ := List.mem_getLast?_eq_getLast (Option.mem_def.mpr h)
  rw [heq]
  exact List.getLast_mem hne

/-- In a tree presented by a well-formed predecessor map, a duplicate-free
parent-adjacent walk from `x` to `y` consists of exactly the chain of `x`
down to the meet, and the chain of `y` down to the meet: the unique-path
characterisation that lets the DFS path of the pairwise filler be computed
in chain coordinates. -/
theorem pmPath_char {pm : List (Nat × Nat × Nat)} {root : Nat} (hwf : PMWf pm root) :
    ∀ (p : List Nat) (x y : Nat), IsPmPath pm p → p.Nodup →
      p.head? = some x → p.getLast? = some y →
      (∀ n ∈ p, root ∈ ancChain pm n) →
      ∀ n, n ∈ p ↔
        (n ∈ chainTo pm x (meet pm x y) ∨ n ∈ chainTo pm y (meet pm x y)) := by
  intro p
  induction p with
  | nil => intro x y _ _ hh; cases hh
  | cons a rest ih =>
    intro x y hpath hnodup hh hl hreach n
    have hax : a = x := by
      simp only [List.head?_cons, Option.some.injEq] at hh
      exact hh
    subst hax
    cases rest with
    | nil =>
      have hay : a = y := by
        simp only [List.getLast?_singleton, Option.some.injEq] at hl
        exact hl
      subst hay
      rw [meet_self_of_mem (ancChain_self pm a)]
      simp only [List.mem_singleton, mem_chainTo_self, or_self]
    | cons z rest' =>
      obtain ⟨hadj, hpath'⟩ := hpath
      have hnodup' : (z :: rest').Nodup := hnodup.of_cons
      have hanotin : a ∉ z :: rest' := (List.nodup_cons.mp hnodup).1
      have hl' : (z :: rest').getLast? = some y := by
        rw [List.getLast?_cons_cons] at hl
        exact hl
      have hreach' : ∀ m ∈ z :: rest', root ∈ ancChain pm m :=
        fun m hm => hreach m (List.mem_cons_of_mem a hm)
      have hra : root ∈ ancChain pm a := hreach a (List.mem_cons_self a _)
      have hrz : root ∈ ancChain pm z := hreach' z (List.mem_cons_self z _)
      have hry : root ∈ ancChain pm y := hreach y (mem_of_getLastOpt hl)
      have hIH := ih z y hpath' hnodup' rfl hl' hreach'
      obtain ⟨hm'z, hm'y, hm'deep⟩ := meet_spec hwf hrz hry
      rcases hadj with ⟨i, hlk⟩ | ⟨i, hlk⟩
      · -- up-step: `z` is the parent of `a`
        have hchain : ancChain pm a = a :: ancChain pm z := ancChain_cons hwf hlk
        have hay : a ∉ ancChain pm y := by
          intro hay
          refine hanotin ((hIH a).mpr (Or.inr ?_))
          rw [mem_chainTo]
          refine ⟨hay, fun ham' => ?_⟩
          exact ancChain_antisymm hwf ham'
            (hchain ▸ List.mem_cons_of_mem a hm'z)
        have hmeq : meet pm a y = meet pm z y := by
          refine meet_unique hwf hra hry
            (hchain ▸ List.mem_cons_of_mem a hm'z) hm'y ?_
          intro d hda hdy
          rcases List.mem_cons.mp (hchain ▸ hda) with rfl | hdz
          · exact absurd hdy hay
          · exact hm'deep d hdz hdy
        rw [hmeq]
        have hseg : ∀ m, m ∈ chainTo pm a (meet pm z y) ↔
            (m = a ∨ m ∈ chainTo pm z (meet pm z y)) := by
          intro m
          rw [mem_chainTo, mem_chainTo, hchain]
          simp only [List.mem_cons]
          constructor
          · rintro ⟨rfl | hmz, hg⟩
            · exact Or.inl rfl
            · exact Or.inr ⟨hmz, hg⟩
          · rintro (rfl | ⟨hmz, hg⟩)
            · refine ⟨Or.inl rfl, fun hm' => ?_⟩
              exact absurd (ancChain_trans hwf hm'y hm') hay
            · exact ⟨Or.inr hmz, hg⟩
        rw [List.mem_cons, hIH n, hseg n]
        tauto
      · -- down-step: `a` is the parent of `z`
        have hchain : ancChain pm z = z :: ancChain pm a := ancChain_cons hwf hlk
        have hznota : z ∉ ancChain pm a := by
          intro hza
          have h₁ : wlv pm z ≤ wlv pm a :=
            (mem_ancChain_wlv hwf (wlv pm a) a z rfl hza).1
          rw [wlv_of_lookup hlk, wf_lookup hwf hlk] at h₁
          omega
        have hm'z_eq : meet pm z y = z := by
          by_contra hne
          rcases List.mem_cons.mp (hchain ▸ hm'z) with h | hma
          · exact hne h
          · refine hanotin ((hIH a).mpr (Or.inl ?_))
            rw [mem_chainTo]
            refine ⟨hchain ▸ List.mem_cons_of_mem z (ancChain_self pm a),
              fun ham' => ?_⟩
            exact ancChain_antisymm hwf ham' hma
        have hzy : z ∈ ancChain pm y := hm'z_eq ▸ hm'y
        have hay : a ∈ ancChain pm y := parent_mem_ancChain hwf hzy hlk
        have hmaeq : meet pm a y = a := meet_self_of_mem hay
        rw [hmaeq, List.mem_cons, hIH n, hm'z_eq]
        simp only [mem_chainTo_self]
        constructor
        · rintro (rfl | rfl | hyz)
          · exact Or.inl rfl
          · exact Or.inr (mem_chainTo.mpr ⟨hzy, fun hza => absurd hza hznota⟩)
          · rw [mem_chainTo] at hyz
            refine Or.inr (mem_chainTo.mpr ⟨hyz.1, fun hna => ?_⟩)
            have hnz : n ∈ ancChain pm z := hchain ▸ List.mem_cons_of_mem z hna
            rw [hyz.2 hnz] at hna
            exact absurd hna hznota
        · rintro (rfl | hny)
          · exact Or.inl rfl
          · rw [mem_chainTo] at hny
            by_cases hnz : n ∈ ancChain pm z
            · rcases List.mem_cons.mp (hchain ▸ hnz) with rfl | hna
              · exact Or.inr (Or.inl rfl)
              · exact Or.inl (hny.2 hna)
            · exact Or.inr (Or.inr (mem_chainTo.mpr ⟨hny.1, fun h => absurd h hnz⟩))

/-- Adjacency is symmetric. -/
theorem adjacentB_comm {g : TGraph} {a b : Nat} : adjacentB g a b ↔ adjacentB g b a :=
  or_comm

/-- The neighbor list holds exactly the adjacent nodes. -/
theorem mem_neighborsOf {g : TGraph} {v n : Nat} :
    n ∈ neighborsOf g v ↔ adjacentB g v n := by
  unfold neighborsOf adjacentB
  simp only [List.mem_append, List.mem_filterMap, List.mem_reverse]
  constructor
  · rintro (⟨e, he, hif⟩ | ⟨e, he, hif⟩)
    · by_cases h1 : e.1 = v
      · rw [if_pos h1] at hif
        cases hif
        left
        rwa [show (v, e.2) = e from Prod.ext h1.symm rfl]
      · rw [if_neg h1] at hif
        cases hif
    · by_cases h2 : e.2 = v
      · rw [if_pos h2] at hif
        cases hif
        right
        rwa [show (e.1, v) = e from Prod.ext rfl h2.symm]
      · rw [if_neg h2] at hif
        cases hif
  · rintro (h | h)
    · exact Or.inl ⟨(v, n), h, by simp⟩
    · exact Or.inr ⟨(n, v), h, by simp⟩

/-- The DFS produces an adjacent walk without duplicates that avoids the
visited set. -/
theorem findPathAux_spec (g : TGraph) :
    ∀ (fuel : Nat) (visited : List Nat) (cur goal : Nat) (p : List Nat),
      findPathAux g fuel visited cur goal = some p → cur ∈ visited →
      IsGraphPath g p ∧ p.Nodup ∧ (∀ n ∈ p, n = cur ∨ n ∉ visited) := by
  intro fuel
  induction fuel with
  | zero => intro _ _ _ _ h; cases h
  | succ fuel ih =>
    intro visited cur goal p h hcur
    rw [findPathAux] at h
    by_cases hc : cur = goal
    · rw [if_pos hc] at h
      simp only [Option.some.injEq] at h
      subst h
      exact ⟨trivial, List.nodup_singleton _, fun n hn => Or.inl (List.mem_singleton.mp hn)⟩
    · rw [if_neg hc] at h
      obtain ⟨nb, hnb, hf⟩ := firstSome_eq_some _ _ h
      by_cases hv : nb ∈ visited
      · rw [if_pos hv] at hf
        cases hf
      · rw [if_neg hv] at hf
        obtain ⟨q, hq, rfl⟩ := Option.map_eq_some'.mp hf
        obtain ⟨hqp, hqn, hqv⟩ := ih (nb :: visited) nb goal q hq (List.mem_cons_self _ _)
        have hqh : q.head? = some nb := (findPathAux_head_last g _ _ _ _ _ hq).1
        have hcurq : cur ∉ q := by
          intro hmem
          rcases hqv cur hmem with rfl | habs
          · exact hv hcur
          · exact habs (List.mem_cons_of_mem nb hcur)
        refine ⟨?_, List.nodup_cons.mpr ⟨hcurq, hqn⟩, ?_⟩
        · cases q with
          | nil => cases hqh
          | cons z t =>
            have hz : z = nb := by
              simp only [List.head?_cons, Option.some.injEq] at hqh
              exact hqh
            subst hz
            exact ⟨mem_neighborsOf.mp hnb, hqp⟩
        · intro n hn
          rcases List.mem_cons.mp hn with rfl | hnq
          · exact Or.inl rfl
          · rcases hqv n hnq with rfl | hnv
            · exact Or.inr hv
            · exact Or.inr (fun hx => hnv (List.mem_cons_of_mem nb hx))

/-- Every node of an adjacent walk other than the head is adjacent to
some node. -/
theorem graphPath_mem_adj (g : TGraph) :
    ∀ (p : List Nat) (h : Nat), IsGraphPath g p → p.head? = some h →
      ∀ n ∈ p, n = h ∨ ∃ m, adjacentB g m n := by
  intro p
  induction p with
  | nil => intro h _ hh; cases hh
  | cons a rest ih =>
    intro h hpath hh n hn
    have hah : a = h := by
      simp only [List.head?_cons, Option.some.injEq] at hh
      exact hh
    subst hah
    rcases List.mem_cons.mp hn with rfl | hrest
    · exact Or.inl rfl
    · cases rest with
      | nil => cases hrest
      | cons z t =>
        rcases ih z hpath.2 rfl n hrest with rfl | hadj
        · exact Or.inr ⟨a, hpath.1⟩
        · exact Or.inr hadj

/-- An edge-adjacent walk is parent-adjacent when every edge is a
predecessor-map edge. -/
theorem graphPath_pm {g : TGraph} {pm : List (Nat × Nat × Nat)}
    (hconv : ∀ a b, adjacentB g a b → pmAdj pm a b) :
    ∀ p, IsGraphPath g p → IsPmPath pm p := by
  intro p
  induction p with
  | nil => intro _; trivial
  | cons a rest ih =>
    intro hpath
    cases rest with
    | nil => trivial
    | cons z t => exact ⟨hconv a z hpath.1, ih hpath.2⟩

/-- The DFS result, packaged: adjacent, duplicate-free, and running from
`a` to `b`. -/
theorem findPath_spec {g : TGraph} {a b : Nat} {p : List Nat}
    (h : findPath g a b = some p) :
    IsGraphPath g p ∧ p.Nodup ∧ p.head? = some a ∧ p.getLast? = some b := by
  obtain ⟨h₁, h₂, -⟩ := findPathAux_spec g _ _ _ _ _ h (List.mem_singleton_self a)
  obtain ⟨h₃, h₄⟩ := findPathAux_head_last g _ _ _ _ _ h
  exact ⟨h₁, h₂, h₃, h₄⟩

/-- `firstSome` only looks at the function's values on the list. -/
theorem firstSome_congr {α β : Type} {f f' : α → Option β}
    (h : ∀ x, f x = f' x) : ∀ l, firstSome f l = firstSome f' l := by
  intro l
  induction l with
  | nil => rfl
  | cons x xs ih =>
    rw [firstSome, firstSome, h x, ih]

/-- Neighbor lists only depend on the edge list. -/
theorem neighborsOf_congr {g₁ g₂ : TGraph} (h : g₁.edges = g₂.edges) (v : Nat) :
    neighborsOf g₁ v = neighborsOf g₂ v := by
  unfold neighborsOf
  rw [h]

/-- The DFS only depends on the edge list. -/
theorem findPathAux_congr {g₁ g₂ : TGraph} (h : g₁.edges = g₂.edges) :
    ∀ (fuel : Nat) (visited : List Nat) (cur goal : Nat),
      findPathAux g₁ fuel visited cur goal = findPathAux g₂ fuel visited cur goal := by
  intro fuel
  induction fuel with
  | zero => intro _ _ _; rfl
  | succ fuel ih =>
    intro visited cur goal
    rw [findPathAux, findPathAux, neighborsOf_congr h cur]
    by_cases hc : cur = goal
    · rw [if_pos hc, if_pos hc]
    · rw [if_neg hc, if_neg hc]
      refine firstSome_congr (fun nb => ?_) _
      by_cases hv : nb ∈ visited
      · rw [if_pos hv, if_pos hv]
      · rw [if_neg hv, if_neg hv, ih]

/-- Path search only depends on the edge list. -/
theorem findPath_congr {g₁ g₂ : TGraph} (h : g₁.edges = g₂.edges) (a b : Nat) :
    findPath g₁ a b = findPath g₂ a b := by
  unfold findPath
  rw [h, findPathAux_congr h]

/-! ## Association-list helpers for the DFS invariants -/
/-- Looking up at the head key. -/
theorem lookup_cons_eq {β : Type} (a : Nat) (b : β) (es : List (Nat × β)) :
    List.lookup a ((a, b) :: es) = some b := by
  simp [List.lookup_cons]

/-- Looking up past the head key. -/
theorem lookup_cons_ne {β : Type} {k a : Nat} (b : β) (es : List (Nat × β))
    (h : k ≠ a) : List.lookup k ((a, b) :: es) = List.lookup k es := by
  rw [List.lookup_cons, show (k == a) = false from beq_eq_false_iff_ne.mpr h]

/-- A hit is preserved by appending. -/
theorem lookup_append_some {β : Type} {l t : List (Nat × β)} {k : Nat} {v : β}
    (h : l.lookup k = some v) : (l ++ t).lookup k = some v := by
  induction l with
  | nil => cases h
  | cons e es ih =>
    obtain ⟨a, b⟩ := e
    by_cases hk : k = a
    · subst hk
      rw [lookup_cons_eq] at h
      rw [List.cons_append, lookup_cons_eq]
      exact h
    · rw [lookup_cons_ne b es hk] at h
      rw [List.cons_append, lookup_cons_ne b (es ++ t) hk]
      exact ih h

/-- A miss defers lookup to the appended part. -/
theorem lookup_append_none {β : Type} {l : List (Nat × β)} {k : Nat}
    (h : l.lookup k = none) (t : List (Nat × β)) :
    (l ++ t).lookup k = t.lookup k := by
  induction l with
  | nil => rfl
  | cons e es ih =>
    obtain ⟨a, b⟩ := e
    by_cases hk : k = a
    · subst hk
      rw [lookup_cons_eq] at h
      cases h
    · rw [lookup_cons_ne b es hk] at h
      rw [List.cons_append, lookup_cons_ne b (es ++ t) hk]
      exact ih h

/-- A miss means the key is absent. -/
theorem lookup_none_not_mem {β : Type} {l : List (Nat × β)} {k : Nat}
    (h : l.lookup k = none) : k ∉ l.map Prod.fst := by
  induction l with
  | nil => simp
  | cons e es ih =>
    obtain ⟨a, b⟩ := e
    by_cases hk : k = a
    · subst hk
      rw [lookup_cons_eq] at h
      cases h
    · rw [lookup_cons_ne b es hk] at h
      simp only [List.map_cons, List.mem_cons]
      rintro (rfl | hmem)
      · exact hk rfl
      · exact ih h hmem

/-- A present key is found. -/
theorem lookup_isSome_of_mem {β : Type} {l : List (Nat × β)} {k : Nat}
    (h : k ∈ l.map Prod.fst) : ∃ v, l.lookup k = some v := by
  cases hl : l.lookup k with
  | none => exact absurd h (lookup_none_not_mem hl)
  | some v => exact ⟨v, rfl⟩

/-- With distinct keys, membership determines the lookup result. -/
theorem lookup_of_mem_nodup {β : Type} {l : List (Nat × β)} {k : Nat} {v : β}
    (hn : (l.map Prod.fst).Nodup) (h : (k, v) ∈ l) : l.lookup k = some v := by
  induction l with
  | nil => cases h
  | cons e es ih =>
    obtain ⟨a, b⟩ := e
    rw [List.map_cons] at hn
    rcases List.mem_cons.mp h with heq | hmem
    · cases heq
      exact lookup_cons_eq k v es
    · have hk : k ≠ a := by
        rintro rfl
        exact (List.nodup_cons.mp hn).1 (List.mem_map.mpr ⟨(k, v), hmem, rfl⟩)
      rw [lookup_cons_ne b es hk]
      exact ih (List.nodup_cons.mp hn).2 hmem

/-- Appending entries with new keys does not change existing levels. -/
theorem wlv_append_ne {pm : List (Nat × Nat × Nat)} {x nb : Nat}
    (e : Nat × Nat) (hx : x ≠ nb) :
    wlv (pm ++ [(nb, e)]) x = wlv pm x := by
  unfold wlv
  cases h : pm.lookup x with
  | some pi => rw [lookup_append_some h]
  | none =>
    rw [lookup_append_none h, lookup_cons_ne e [] hx]
    rfl

/-- The level of a freshly appended key. -/
theorem wlv_append_self {pm : List (Nat × Nat × Nat)} {nb cur idx : Nat}
    (h : pm.lookup nb = none) :
    wlv (pm ++ [(nb, cur, idx)]) nb = idx + 1 := by
  unfold wlv
  rw [lookup_append_none h, lookup_cons_eq]

/-- Unordered pairs forget the orientation only. -/
theorem normPair_eq {a b c d : Nat} (h : normPair (a, b) = normPair (c, d)) :
    (a = c ∧ b = d) ∨ (a = d ∧ b = c) := by
  simp only [normPair, Prod.mk.injEq, Nat.min_def, Nat.max_def] at h
  split_ifs at h <;> omega

/-- Unordered pairs are symmetric. -/
theorem normPair_comm (a b : Nat) : normPair (a, b) = normPair (b, a) := by
  simp [normPair, Nat.min_comm, Nat.max_comm]

/-- The DFS loop body written via `setupStep`. -/
theorem setupLoop_eq (g : TGraph) (root fuel cv ci : Nat) (st : List (Nat × Nat))
    (pm : List (Nat × Nat × Nat)) :
    setupLoop g root (fuel + 1) ((cv, ci) :: st) pm =
      setupLoop g root fuel
        ((neighborsOf g cv).foldl (setupStep root cv ci) (st, pm)).1
        ((neighborsOf g cv).foldl (setupStep root cv ci) (st, pm)).2 := rfl

/-- Folding one node's neighbour list preserves the invariant, and keeps
the current node's level and membership status. -/
theorem setupFold_facts (g : TGraph) (root cv ci : Nat) :
    ∀ (l : List Nat) (st : List (Nat × Nat)) (pm : List (Nat × Nat × Nat)),
      (∀ nb ∈ l, adjacentB g cv nb) →
      SetupInv g root st pm → wlv pm cv = ci →
      (cv = root ∨ cv ∈ pm.map Prod.fst) →
      SetupInv g root (l.foldl (setupStep root cv ci) (st, pm)).1
          (l.foldl (setupStep root cv ci) (st, pm)).2 ∧
        wlv (l.foldl (setupStep root cv ci) (st, pm)).2 cv = ci ∧
        (cv = root ∨ cv ∈ (l.foldl (setupStep root cv ci) (st, pm)).2.map Prod.fst) := by
  intro l
  induction l with
  | nil => intro st pm _ hinv hlv hmem; exact ⟨hinv, hlv, hmem⟩
  | cons nb l' ih =>
    intro st pm hadj hinv hlv hmem
    rw [List.foldl_cons]
    by_cases hcond : (pm.lookup nb).isNone ∧ nb ≠ root
    · have hstep : setupStep root cv ci (st, pm) nb =
          ((nb, ci + 1) :: st, pm ++ [(nb, cv, ci)]) := by
        unfold setupStep
        rw [if_pos hcond]
      rw [hstep]
      have hfresh : pm.lookup nb = none := Option.isNone_iff_eq_none.mp hcond.1
      have hnbkeys : nb ∉ pm.map Prod.fst := lookup_none_not_mem hfresh
      have hne_nb : ∀ x, (x = root ∨ x ∈ pm.map Prod.fst) → x ≠ nb := by
        rintro x (rfl | hx) rfl
        · exact hcond.2 rfl
        · exact hnbkeys hx
      have hwst : ∀ x, (x = root ∨ x ∈ pm.map Prod.fst) →
          wlv (pm ++ [(nb, cv, ci)]) x = wlv pm x :=
        fun x hx => wlv_append_ne (cv, ci) (hne_nb x hx)
      have hkeys : (pm ++ [(nb, cv, ci)]).map Prod.fst = pm.map Prod.fst ++ [nb] := by
        rw [List.map_append]
        rfl
      have hmem' : ∀ x, (x = root ∨ x ∈ pm.map Prod.fst) →
          (x = root ∨ x ∈ (pm ++ [(nb, cv, ci)]).map Prod.fst) := by
        rintro x (rfl | hx)
        · exact Or.inl rfl
        · rw [hkeys]
          exact Or.inr (List.mem_append_left _ hx)
      have hinv' : SetupInv g root ((nb, ci + 1) :: st) (pm ++ [(nb, cv, ci)]) := by
        refine ⟨?_, ?_, ?_, ?_, ?_, ?_, ?_⟩
        · rw [hkeys, List.nodup_append]
          exact ⟨hinv.keysNodup, List.nodup_singleton _,
            fun a ha hb => hne_nb a (Or.inr ha) (List.mem_singleton.mp hb)⟩
        · intro e he
          rcases List.mem_append.mp he with h | h
          · exact hinv.keyNe e h
          · rw [List.mem_singleton] at h
            subst h
            exact hcond.2
        · intro e he
          rcases List.mem_append.mp he with h | h
          · rw [hwst e.2.1 (hinv.parMem e h)]
            exact hinv.lvOk e h
          · rw [List.mem_singleton] at h
            subst h
            rw [hwst cv hmem]
            exact hlv
        · intro e he
          rcases List.mem_append.mp he with h | h
          · exact hmem' e.2.1 (hinv.parMem e h)
          · rw [List.mem_singleton] at h
            subst h
            exact hmem' cv hmem
        · intro e he
          rcases List.mem_append.mp he with h | h
          · exact hinv.adjOk e h
          · rw [List.mem_singleton] at h
            subst h
            exact adjacentB_comm.mp (hadj nb (List.mem_cons_self _ _))
        · intro it hit
          rcases List.mem_cons.mp hit with rfl | h
          · exact wlv_append_self hfresh
          · rw [hwst it.1 (hinv.stMem it h)]
            exact hinv.stLv it h
        · intro it hit
          rcases List.mem_cons.mp hit with rfl | h
          · rw [hkeys]
            exact Or.inr (List.mem_append_right _ (List.mem_singleton_self nb))
          · exact hmem' it.1 (hinv.stMem it h)
      exact ih _ _ (fun x hx => hadj x (List.mem_cons_of_mem nb hx)) hinv'
        ((hwst cv hmem).trans hlv) (hmem' cv hmem)
    · have hstep : setupStep root cv ci (st, pm) nb = (st, pm) := by
        unfold setupStep
        rw [if_neg hcond]
      rw [hstep]
      exact ih _ _ (fun x hx => hadj x (List.mem_cons_of_mem nb hx)) hinv hlv hmem

/-- The DFS loop preserves the invariant to the end. -/
theorem setupLoop_facts (g : TGraph) (root : Nat) :
    ∀ (fuel : Nat) (st : List (Nat × Nat)) (pm : List (Nat × Nat × Nat)),
      SetupInv g root st pm →
      ∃ st', SetupInv g root st' (setupLoop g root fuel st pm) := by
  intro fuel
  induction fuel with
  | zero => intro st pm hinv; exact ⟨st, hinv⟩
  | succ fuel ih =>
    intro st pm hinv
    cases st with
    | nil => exact ⟨[], hinv⟩
    | cons top st' =>
      obtain ⟨cv, ci⟩ := top
      rw [setupLoop_eq]
      have htail : SetupInv g root st' pm :=
        { hinv with
          stLv := fun it hit => hinv.stLv it (List.mem_cons_of_mem _ hit),
          stMem := fun it hit => hinv.stMem it (List.mem_cons_of_mem _ hit) }
      obtain ⟨hinv', -, -⟩ := setupFold_facts g root cv ci (neighborsOf g cv) st' pm
        (fun nb h => mem_neighborsOf.mp h) htail
        (hinv.stLv (cv, ci) (List.mem_cons_self _ _))
        (hinv.stMem (cv, ci) (List.mem_cons_self _ _))
      exact ih _ _ hinv'

/-- What a successful `setup_predecessors` guarantees. -/
theorem setup_predecessors_spec {g : TGraph} {root : Nat} {pm : List (Nat × Nat × Nat)}
    (h : setup_predecessors g root = some pm) :
    (∃ st', SetupInv g root st' pm) ∧
      pm.length = g.bags.length - 1 ∧ pm.lookup root = none := by
  have hinit : SetupInv g root [(root, 0)] [] := by
    refine ⟨List.nodup_nil, ?_, ?_, ?_, ?_, ?_, ?_⟩
    · intro e he; cases he
    · intro e he; cases he
    · intro e he; cases he
    · intro e he; cases he
    · intro it hit
      rw [List.mem_singleton] at hit
      subst hit
      rfl
    · intro it hit
      rw [List.mem_singleton] at hit
      subst hit
      exact Or.inl rfl
  simp only [setup_predecessors] at h
  split at h
  · rename_i hcond
    simp only [Option.some.injEq] at h
    subst h
    exact ⟨setupLoop_facts g root _ _ _ hinit, hcond.1,
      Option.isNone_iff_eq_none.mp hcond.2⟩
  · cases h

/-- The degree-maximising fold stays below the node count. -/
theorem foldl_max_lt (g : TGraph) (n : Nat) :
    ∀ (l : List Nat) (b : Nat), b < n → (∀ v ∈ l, v < n) →
      l.foldl (fun best v => if degreeOf g best ≤ degreeOf g v then v else best) b < n := by
  intro l
  induction l with
  | nil => intro b hb _; simpa using hb
  | cons v l' ih =>
    intro b hb hl
    rw [List.foldl_cons]
    refine ih _ ?_ (fun x hx => hl x (List.mem_cons_of_mem v hx))
    by_cases hc : degreeOf g b ≤ degreeOf g v
    · rw [if_pos hc]
      exact hl v (List.mem_cons_self _ _)
    · rw [if_neg hc]
      exact hb

/-- The selected root is a valid node. -/
theorem rootOf_lt {g : TGraph} {root : Nat} (h : rootOf g = some root) :
    root < g.bags.length := by
  unfold rootOf at h
  cases hlen : g.bags.length with
  | zero => rw [hlen] at h; cases h
  | succ n =>
    rw [hlen] at h
    simp only [Option.some.injEq] at h
    rw [← h]
    exact foldl_max_lt g (n + 1) _ 0 (Nat.succ_pos n)
      (fun v hv => List.mem_range.mp hv)

/-- On a tree, a successful `setup_predecessors` produces a well-formed
predecessor map whose chains all reach the root, and whose parent edges
are exactly the tree edges. -/
theorem setup_tree_facts {g : TGraph} {root : Nat} {pm : List (Nat × Nat × Nat)}
    (htree : IsTreeGraph g) (hroot : root < g.bags.length)
    (h : setup_predecessors g root = some pm) :
    PMWf pm root ∧
      (∀ m, m < g.bags.length → root ∈ ancChain pm m) ∧
      (∀ a b, adjacentB g a b → pmAdj pm a b) := by
  obtain ⟨⟨st', hinv⟩, hlen, hrootnone⟩ := setup_predecessors_spec h
  obtain ⟨-, hcount, hvalid, hnodupE⟩ := htree
  have hwf : PMWf pm root := ⟨hrootnone, hinv.lvOk⟩
  have hadj_valid : ∀ a b, adjacentB g a b → a < g.bags.length ∧ b < g.bags.length := by
    rintro a b (hab | hab)
    · exact ⟨(hvalid _ hab).1, (hvalid _ hab).2.1⟩
    · exact ⟨(hvalid _ hab).2.1, (hvalid _ hab).1⟩
  have hkeyv : ∀ k ∈ pm.map Prod.fst, k < g.bags.length := by
    intro k hk
    obtain ⟨e, he, rfl⟩ := List.mem_map.mp hk
    exact (hadj_valid _ _ (hinv.adjOk e he)).1
  have hkeyset : ∀ m, m < g.bags.length → m ≠ root → m ∈ pm.map Prod.fst := by
    intro m hm hmr
    have hsub : (pm.map Prod.fst).toFinset ⊆ (Finset.range g.bags.length).erase root := by
      intro k hk
      rw [List.mem_toFinset] at hk
      rw [Finset.mem_erase, Finset.mem_range]
      refine ⟨?_, hkeyv k hk⟩
      obtain ⟨e, he, rfl⟩ := List.mem_map.mp hk
      exact hinv.keyNe e he
    have hcard : ((Finset.range g.bags.length).erase root).card ≤
        (pm.map Prod.fst).toFinset.card := by
      rw [List.toFinset_card_of_nodup hinv.keysNodup, List.length_map,
        Finset.card_erase_of_mem (Finset.mem_range.mpr hroot), Finset.card_range, hlen]
    have heq := Finset.eq_of_subset_of_card_le hsub hcard
    have : m ∈ (pm.map Prod.fst).toFinset := by
      rw [heq, Finset.mem_erase, Finset.mem_range]
      exact ⟨hmr, hm⟩
    exact List.mem_toFinset.mp this
  have hreach : ∀ (k m : Nat), wlv pm m = k → m < g.bags.length →
      root ∈ ancChain pm m := by
    intro k
    induction k using Nat.strong_induction_on with
    | _ k ih =>
      intro m hk hm
      by_cases hmr : m = root
      · subst hmr
        rw [ancChain_none hrootnone]
        exact List.mem_singleton_self _
      · obtain ⟨pi, hpi⟩ := lookup_isSome_of_mem (hkeyset m hm hmr)
        obtain ⟨p, i⟩ := pi
        have hentry : (m, p, i) ∈ pm := lookup_mem hpi
        have hp_lt : p < g.bags.length := (hadj_valid _ _ (hinv.adjOk _ hentry)).2
        rw [ancChain_cons hwf hpi]
        refine List.mem_cons_of_mem m (ih i ?_ p (wf_lookup hwf hpi) hp_lt)
        rw [← hk, wlv_of_lookup hpi]
        omega
  have hkeyInj : ∀ (a : Nat) (v₁ v₂ : Nat × Nat), (a, v₁) ∈ pm → (a, v₂) ∈ pm →
      v₁ = v₂ := by
    intro a v₁ v₂ h₁ h₂
    have hh := lookup_of_mem_nodup hinv.keysNodup h₁
    rw [lookup_of_mem_nodup hinv.keysNodup h₂] at hh
    exact (Option.some.inj hh).symm
  have hpmE_nodup : (pm.map (fun e => normPair (e.1, e.2.1))).Nodup := by
    refine (hinv.keysNodup.of_map).map_on ?_
    rintro ⟨k₁, p₁, i₁⟩ he₁ ⟨k₂, p₂, i₂⟩ he₂ hnp
    dsimp only at hnp
    rcases normPair_eq hnp with ⟨hk, hp⟩ | ⟨hk, hp⟩
    · subst hk
      subst hp
      have h2 := hkeyInj k₁ (p₁, i₁) (p₁, i₂) he₁ he₂
      rw [Prod.mk.injEq] at h2
      rw [h2.2]
    · have hl₁ := lookup_of_mem_nodup hinv.keysNodup he₁
      have hl₂ := lookup_of_mem_nodup hinv.keysNodup he₂
      have hw₁ : wlv pm k₁ = i₁ + 1 := wlv_of_lookup hl₁
      have hw₂ : wlv pm k₂ = i₂ + 1 := wlv_of_lookup hl₂
      have hq₁ : wlv pm p₁ = i₁ := hinv.lvOk _ he₁
      have hq₂ : wlv pm p₂ = i₂ := hinv.lvOk _ he₂
      rw [hk] at hw₁
      rw [hp] at hq₁
      omega
  have hedge_entry : ∀ e ∈ g.edges, ∃ t ∈ pm, normPair (t.1, t.2.1) = normPair e := by
    intro e he
    have hmemE : normPair e ∈ (g.edges.map normPair).toFinset :=
      List.mem_toFinset.mpr (List.mem_map.mpr ⟨e, he, rfl⟩)
    have hsub : (pm.map (fun t => normPair (t.1, t.2.1))).toFinset ⊆
        (g.edges.map normPair).toFinset := by
      intro x hx
      rw [List.mem_toFinset] at hx ⊢
      obtain ⟨t, ht, rfl⟩ := List.mem_map.mp hx
      rcases hinv.adjOk t ht with hE | hE
      · exact List.mem_map.mpr ⟨(t.1, t.2.1), hE, rfl⟩
      · exact List.mem_map.mpr ⟨(t.2.1, t.1), hE, (normPair_comm _ _).symm⟩
    have hcard : (g.edges.map normPair).toFinset.card ≤
        (pm.map (fun t => normPair (t.1, t.2.1))).toFinset.card := by
      rw [List.toFinset_card_of_nodup hnodupE,
        List.toFinset_card_of_nodup hpmE_nodup, List.length_map, List.length_map,
        hcount, hlen]
    have heq := Finset.eq_of_subset_of_card_le hsub hcard
    have : normPair e ∈ (pm.map (fun t => normPair (t.1, t.2.1))).toFinset := by
      rw [heq]
      exact hmemE
    obtain ⟨t, ht, hnp⟩ := List.mem_map.mp (List.mem_toFinset.mp this)
    exact ⟨t, ht, hnp⟩
  have hkey : ∀ (c d : Nat), (c, d) ∈ g.edges → pmAdj pm c d := by
    intro c d hcd
    obtain ⟨⟨k, p, i⟩, ht, hnp⟩ := hedge_entry (c, d) hcd
    dsimp only at hnp
    rcases normPair_eq hnp with ⟨hk, hp⟩ | ⟨hk, hp⟩
    · subst hk
      subst hp
      exact Or.inl ⟨i, lookup_of_mem_nodup hinv.keysNodup ht⟩
    · subst hk
      subst hp
      exact Or.inr ⟨i, lookup_of_mem_nodup hinv.keysNodup ht⟩
  refine ⟨hwf, fun m hm => hreach (wlv pm m) m rfl hm, ?_⟩
  rintro a b (hE | hE)
  · exact hkey a b hE
  · rcases hkey b a hE with h' | h'
    · exact Or.inr h'
    · exact Or.inl h'

/-- Membership among the holders. -/
theorem mem_holdersList {g : TGraph} {u n : Nat} :
    n ∈ holdersList g u ↔ n < g.bags.length ∧ u ∈ bagOf g n := by
  simp [holdersList, List.mem_filter, List.mem_range]

/-- Membership in the hull. -/
theorem mem_hullSet {g : TGraph} {pm : List (Nat × Nat × Nat)} {u n : Nat} :
    n ∈ hullSet g pm u ↔ ∃ x ∈ holdersList g u, ∃ y ∈ holdersList g u,
      n ∈ pathViaSet pm x y := by
  simp [hullSet, Finset.mem_biUnion, List.mem_toFinset]

/-- The path from a node to itself is the node alone. -/
theorem mem_pathViaSet_self {pm : List (Nat × Nat × Nat)} {x n : Nat} :
    n ∈ pathViaSet pm x x ↔ n = x := by
  unfold pathViaSet
  rw [meet_self_of_mem (ancChain_self pm x)]
  simp [mem_chainTo_self]

/-- Every holder lies in the hull. -/
theorem holder_mem_hullSet {g : TGraph} {pm : List (Nat × Nat × Nat)} {u s : Nat}
    (hs : s ∈ holdersList g u) : s ∈ hullSet g pm u :=
  mem_hullSet.mpr ⟨s, hs, s, hs, mem_pathViaSet_self.mpr rfl⟩

/-- Any non-empty family of root-reaching nodes has a deepest common
ancestor. -/
theorem exists_lca {pm : List (Nat × Nat × Nat)} {root : Nat} (hwf : PMWf pm root) :
    ∀ (S : List Nat), S ≠ [] → (∀ s ∈ S, root ∈ ancChain pm s) →
      ∃ c, root ∈ ancChain pm c ∧ (∀ s ∈ S, c ∈ ancChain pm s) ∧
        ∀ d, (∀ s ∈ S, d ∈ ancChain pm s) → d ∈ ancChain pm c := by
  intro S
  induction S with
  | nil => intro h; exact absurd rfl h
  | cons s rest ih =>
    intro _ hreach
    have hrs : root ∈ ancChain pm s := hreach s (List.mem_cons_self _ _)
    by_cases hrest : rest = []
    · subst hrest
      refine ⟨s, hrs, ?_, fun d hd => hd s (List.mem_cons_self _ _)⟩
      intro t ht
      rw [List.mem_singleton] at ht
      subst ht
      exact ancChain_self pm t
    · obtain ⟨c', hc'r, hc'mem, hc'deep⟩ :=
        ih hrest (fun t ht => hreach t (List.mem_cons_of_mem _ ht))
      obtain ⟨h₁, h₂, h₃⟩ := meet_spec hwf hrs hc'r
      refine ⟨meet pm s c', reach_of_mem hwf hwf.1 hrs h₁, ?_, ?_⟩
      · intro t ht
        rcases List.mem_cons.mp ht with rfl | ht'
        · exact h₁
        · exact ancChain_trans hwf (hc'mem t ht') h₂
      · intro d hd
        exact h₃ d (hd s (List.mem_cons_self _ _))
          (hc'deep d (fun t ht => hd t (List.mem_cons_of_mem _ ht)))

/-- The fold picks a minimiser. -/
theorem listArgmin_spec (f : Nat → Nat) :
    ∀ (xs : List Nat) (x : Nat),
      (listArgmin f x xs = x ∨ listArgmin f x xs ∈ xs) ∧
        f (listArgmin f x xs) ≤ f x ∧ ∀ t ∈ xs, f (listArgmin f x xs) ≤ f t := by
  intro xs
  induction xs with
  | nil => intro x; exact ⟨Or.inl rfl, le_refl _, by simp⟩
  | cons t ts ih =>
    intro x
    have heq : listArgmin f x (t :: ts) =
        listArgmin f (if f t < f x then t else x) ts := rfl
    by_cases hc : f t < f x
    · rw [heq, if_pos hc]
      obtain ⟨hmem, hle, hall⟩ := ih t
      refine ⟨?_, le_trans hle (le_of_lt hc), ?_⟩
      · rcases hmem with h | h
        · rw [h]
          exact Or.inr (List.mem_cons_self _ _)
        · exact Or.inr (List.mem_cons_of_mem _ h)
      · intro t' ht'
        rcases List.mem_cons.mp ht' with rfl | h
        · exact hle
        · exact hall t' h
    · rw [heq, if_neg hc]
      obtain ⟨hmem, hle, hall⟩ := ih x
      refine ⟨?_, hle, ?_⟩
      · rcases hmem with h | h
        · exact Or.inl h
        · exact Or.inr (List.mem_cons_of_mem _ h)
      · intro t' ht'
        rcases List.mem_cons.mp ht' with rfl | h
        · exact le_trans hle (not_lt.mp hc)
        · exact hall t' h

/-- Cutting a path component at a common ancestor above the meet. -/
theorem chainTo_meet_sub {pm : List (Nat × Nat × Nat)} {root x y c : Nat}
    (hwf : PMWf pm root) (hrx : root ∈ ancChain pm x) (hry : root ∈ ancChain pm y)
    (hcx : c ∈ ancChain pm x) (hcy : c ∈ ancChain pm y) :
    chainTo pm x (meet pm x y) ⊆ chainTo pm x c := by
  intro n hn
  rw [mem_chainTo] at hn ⊢
  refine ⟨hn.1, fun hnc => ?_⟩
  have hcm : c ∈ ancChain pm (meet pm x y) := (meet_spec hwf hrx hry).2.2 c hcx hcy
  have hnm : n ∈ ancChain pm (meet pm x y) := ancChain_trans hwf hcm hnc
  have heq : n = meet pm x y := hn.2 hnm
  rw [← heq] at hcm
  exact ancChain_antisymm hwf hnc hcm

/-- Widening the start of a path component along a chain. -/
theorem chainTo_mono {pm : List (Nat × Nat × Nat)} {root s x c : Nat}
    (hwf : PMWf pm root) (hx : x ∈ ancChain pm s) :
    chainTo pm x c ⊆ chainTo pm s c := by
  intro n hn
  rw [mem_chainTo] at hn ⊢
  exact ⟨ancChain_trans hwf hx hn.1, hn.2⟩

/-- With a deepest common ancestor `c` of the holders, the pairwise hull
is exactly the union of the holders' chains cut at `c`. -/
theorem hullSet_eq {g : TGraph} {pm : List (Nat × Nat × Nat)} {root u c : Nat}
    (hwf : PMWf pm root)
    (hreach : ∀ s ∈ holdersList g u, root ∈ ancChain pm s)
    (hc1 : ∀ s ∈ holdersList g u, c ∈ ancChain pm s)
    (hc2 : ∀ d, (∀ s ∈ holdersList g u, d ∈ ancChain pm s) → d ∈ ancChain pm c) :
    hullSet g pm u = (holdersList g u).toFinset.biUnion fun s => chainTo pm s c := by
  ext n
  rw [mem_hullSet, Finset.mem_biUnion]
  constructor
  · rintro ⟨x, hx, y, hy, hn⟩
    rcases Finset.mem_union.mp hn with hn' | hn'
    · refine ⟨x, List.mem_toFinset.mpr hx, ?_⟩
      exact chainTo_meet_sub hwf (hreach x hx) (hreach y hy) (hc1 x hx) (hc1 y hy) hn'
    · refine ⟨y, List.mem_toFinset.mpr hy, ?_⟩
      rw [meet_comm hwf (hreach x hx) (hreach y hy)] at hn'
      exact chainTo_meet_sub hwf (hreach y hy) (hreach x hx) (hc1 y hy) (hc1 x hx) hn'
  · rintro ⟨s, hs, hn⟩
    rw [List.mem_toFinset] at hs
    rw [mem_chainTo] at hn
    set f := fun t => wlv pm (meet pm s t) with hf
    set w := listArgmin f s (holdersList g u) with hw
    obtain ⟨hwmem, -, hwall⟩ := listArgmin_spec f (holdersList g u) s
    have hwmem' : w ∈ holdersList g u := by
      rcases hwmem with h | h
      · rw [hw, h]; exact hs
      · rw [hw]; exact h
    have hrs : root ∈ ancChain pm s := hreach s hs
    have hrw : root ∈ ancChain pm w := hreach w hwmem'
    obtain ⟨hm1, hm2, hm3⟩ := meet_spec hwf hrs hrw
    have hmcommon : ∀ t ∈ holdersList g u, meet pm s w ∈ ancChain pm t := by
      intro t ht
      have hrt : root ∈ ancChain pm t := hreach t ht
      obtain ⟨ht1, ht2, -⟩ := meet_spec hwf hrs hrt
      have hle : wlv pm (meet pm s w) ≤ wlv pm (meet pm s t) := hwall t ht
      exact ancChain_trans hwf ht2 (ancChain_of_le hwf hm1 ht1 hle)
    have hmc : meet pm s w ∈ ancChain pm c := hc2 _ hmcommon
    refine ⟨s, hs, w, hwmem',
      Finset.mem_union.mpr (Or.inl (mem_chainTo.mpr ⟨hn.1, fun hnm => ?_⟩))⟩
    have hnc : n ∈ ancChain pm c := ancChain_trans hwf hmc hnm
    have heq : n = c := hn.2 hnc
    rw [← heq] at hmc
    exact ancChain_antisymm hwf hnm hmc

/-- The hull is convex: the path between two hull members stays in the
hull. -/
theorem hull_convex {g : TGraph} {pm : List (Nat × Nat × Nat)} {root u c x y : Nat}
    (hwf : PMWf pm root)
    (hreach : ∀ s ∈ holdersList g u, root ∈ ancChain pm s)
    (hc1 : ∀ s ∈ holdersList g u, c ∈ ancChain pm s)
    (hc2 : ∀ d, (∀ s ∈ holdersList g u, d ∈ ancChain pm s) → d ∈ ancChain pm c)
    (hrx : root ∈ ancChain pm x) (hry : root ∈ ancChain pm y)
    (hx : x ∈ hullSet g pm u) (hy : y ∈ hullSet g pm u) :
    pathViaSet pm x y ⊆ hullSet g pm u := by
  rw [hullSet_eq hwf hreach hc1 hc2] at hx hy ⊢
  obtain ⟨s₁, hs₁, hxs⟩ := Finset.mem_biUnion.mp hx
  obtain ⟨s₂, hs₂, hys⟩ := Finset.mem_biUnion.mp hy
  rw [mem_chainTo] at hxs hys
  have hcx : c ∈ ancChain pm x := by
    rcases ancChain_comparable hwf (wlv pm s₁) s₁ c x rfl
        (hc1 s₁ (List.mem_toFinset.mp hs₁)) hxs.1 with h | h
    · exact h
    · rw [← hxs.2 h]
      exact ancChain_self pm x
  have hcy : c ∈ ancChain pm y := by
    rcases ancChain_comparable hwf (wlv pm s₂) s₂ c y rfl
        (hc1 s₂ (List.mem_toFinset.mp hs₂)) hys.1 with h | h
    · exact h
    · rw [← hys.2 h]
      exact ancChain_self pm y
  intro n hn
  rcases Finset.mem_union.mp hn with hn' | hn'
  · refine Finset.mem_biUnion.mpr ⟨s₁, hs₁, ?_⟩
    exact chainTo_mono hwf hxs.1 (chainTo_meet_sub hwf hrx hry hcx hcy hn')
  · refine Finset.mem_biUnion.mpr ⟨s₂, hs₂, ?_⟩
    rw [meet_comm hwf hrx hry] at hn'
    exact chainTo_mono hwf hys.1 (chainTo_meet_sub hwf hry hrx hcy hcx hn')

/-- The path set is symmetric. -/
theorem pathViaSet_comm {pm : List (Nat × Nat × Nat)} {root x y : Nat}
    (hwf : PMWf pm root) (hrx : root ∈ ancChain pm x) (hry : root ∈ ancChain pm y) :
    pathViaSet pm x y = pathViaSet pm y x := by
  unfold pathViaSet
  rw [meet_comm hwf hrx hry, Finset.union_comm]

/-! ## The pairwise filler computes the hull -/
/-- `extendBag` leaves the edges alone. -/
theorem extendBag_edges {g g' : TGraph} {i : Nat} {s : Finset Nat}
    (h : extendBag g i s = some g') : g'.edges = g.edges := by
  unfold extendBag at h
  split at h
  · simp only [Option.some.injEq] at h
    subst h
    rfl
  · cases h

/-- The extension fold leaves the edges alone. -/
theorem foldExtend_edges (s : Finset Nat) :
    ∀ (targets : List Nat) (g g' : TGraph),
      targets.foldlM (fun h i => extendBag h i s) g = some g' →
      g'.edges = g.edges := by
  intro targets
  induction targets with
  | nil =>
    intro g g' h
    simp only [List.foldlM_nil] at h
    cases h
    rfl
  | cons t ts ih =>
    intro g g' h
    rw [List.foldlM_cons] at h
    obtain ⟨g₁, h₁, h₂⟩ := Option.bind_eq_some.mp h
    exact (ih g₁ g' h₂).trans (extendBag_edges h₁)

/-- What one pairwise step can do: edges and length are kept, and any new
membership comes from both endpoint bags with the marked node on the found
path. -/
theorem processPair_inv {g g' : TGraph} {second_index first_index : Nat}
    (h : processPair g second_index first_index = some g') :
    g'.edges = g.edges ∧ g'.bags.length = g.bags.length ∧
      ∀ u n, u ∈ bagOf g' n →
        u ∈ bagOf g n ∨
          (u ∈ bagOf g first_index ∧ u ∈ bagOf g second_index ∧
            ∃ p, findPath g first_index second_index = some p ∧ n ∈ p) := by
  simp only [processPair] at h
  by_cases hIe : bagOf g first_index ∩ bagOf g second_index = ∅
  · rw [if_pos hIe] at h
    simp only [Option.some.injEq] at h
    subst h
    exact ⟨rfl, rfl, fun u n hu => Or.inl hu⟩
  · rw [if_neg hIe] at h
    cases htg : pairInsertionTargets g second_index first_index with
    | none =>
      rw [htg] at h
      cases h
    | some targets =>
      rw [htg] at h
      unfold pairInsertionTargets at htg
      obtain ⟨p, hp, htargets⟩ := Option.map_eq_some'.mp htg
      obtain ⟨hlen, hmem, hoth⟩ := foldExtend_spec _ _ _ _ h
      refine ⟨foldExtend_edges _ _ _ _ h, hlen, ?_⟩
      intro u n hu
      by_cases hnt : n ∈ targets
      · rw [hmem n hnt] at hu
        rcases Finset.mem_union.mp hu with h' | h'
        · exact Or.inl h'
        · refine Or.inr ⟨(Finset.mem_inter.mp h').1, (Finset.mem_inter.mp h').2,
            p, hp, ?_⟩
          rw [← htargets] at hnt
          exact (List.dropLast_sublist p).subset (List.mem_filter.mp hnt).1
      · rw [hoth n hnt] at hu
        exact Or.inl hu

/-- A pairwise step with a found path puts the intersection into every bag
on the path. -/
theorem processPair_covers {g g' : TGraph} {second_index first_index : Nat}
    {p : List Nat}
    (hpath : findPath g first_index second_index = some p)
    (hrun : processPair g second_index first_index = some g') :
    ∀ n ∈ p, bagOf g first_index ∩ bagOf g second_index ⊆ bagOf g' n := by
  have hhl := findPathAux_head_last g _ _ _ _ _ hpath
  have hne : p ≠ [] := by
    intro h
    rw [h] at hhl
    cases hhl.1
  have hlast : p.getLast hne = second_index := by
    have := hhl.2
    rw [List.getLast?_eq_getLast p hne] at this
    exact Option.some.inj this
  simp only [processPair] at hrun
  by_cases hIe : bagOf g first_index ∩ bagOf g second_index = ∅
  · rw [if_pos hIe] at hrun
    simp only [Option.some.injEq] at hrun
    subst hrun
    intro n _
    rw [hIe]
    exact Finset.empty_subset _
  · rw [if_neg hIe] at hrun
    unfold pairInsertionTargets at hrun
    rw [hpath] at hrun
    simp only [Option.map_some'] at hrun
    obtain ⟨-, hmem, hoth⟩ := foldExtend_spec _ _ _ _ hrun
    intro n hn
    by_cases ht : n ∈ p.dropLast.filter (fun x => x ≠ first_index)
    · rw [hmem n ht]
      exact Finset.subset_union_right
    · rw [hoth n ht]
      by_cases hf : n = first_index
      · subst hf
        exact Finset.inter_subset_left
      · have hnd : n ∉ p.dropLast := by
          intro hd
          exact ht (List.mem_filter.mpr ⟨hd, by simp [hf]⟩)
        have : n ∈ p.dropLast ++ [p.getLast hne] := by
          rw [List.dropLast_concat_getLast hne]
          exact hn
        rcases List.mem_append.mp this with h | h
        · exact absurd h hnd
        · have : n = second_index := by
            rw [← hlast]
            simpa using h
          subst this
          exact Finset.inter_subset_right

/-- The pairwise loop keeps edges and bag count. -/
theorem pairLoop_edges :
    ∀ (L : List (Nat × Nat)) (g g' : TGraph),
      L.foldlM (fun h pr => processPair h pr.1 pr.2) g = some g' →
      g'.edges = g.edges ∧ g'.bags.length = g.bags.length := by
  intro L
  induction L with
  | nil =>
    intro g g' h
    simp only [List.foldlM_nil] at h
    cases h
    exact ⟨rfl, rfl⟩
  | cons pr L' ih =>
    intro g g' h
    rw [List.foldlM_cons] at h
    obtain ⟨g₁, h₁, h₂⟩ := Option.bind_eq_some.mp h
    obtain ⟨he, hl, -⟩ := processPair_inv h₁
    obtain ⟨he', hl'⟩ := ih g₁ g' h₂
    exact ⟨he'.trans he, hl'.trans hl⟩

/-- On a spanned tree the DFS path between two valid nodes is exactly the
chain-coordinate path set. -/
theorem findPath_pathViaSet {g₀ : TGraph} {pm : List (Nat × Nat × Nat)}
    {root a b : Nat} {p : List Nat}
    (hwf : PMWf pm root)
    (hreach : ∀ m, m < g₀.bags.length → root ∈ ancChain pm m)
    (hconv : ∀ x y, adjacentB g₀ x y → pmAdj pm x y)
    (hadjv : ∀ x y, adjacentB g₀ x y → x < g₀.bags.length ∧ y < g₀.bags.length)
    (ha : a < g₀.bags.length)
    (hp : findPath g₀ a b = some p) :
    ∀ n, n ∈ p ↔ n ∈ pathViaSet pm a b := by
  obtain ⟨hgp, hnd, hh, hl⟩ := findPath_spec hp
  have hpreach : ∀ n ∈ p, root ∈ ancChain pm n := by
    intro n hn
    rcases graphPath_mem_adj g₀ p a hgp hh n hn with rfl | ⟨m, hm⟩
    · exact hreach n ha
    · exact hreach n (hadjv m n hm).2
  have hchar := pmPath_char hwf p a b (graphPath_pm hconv p hgp) hnd hh hl hpreach
  intro n
  rw [hchar n]
  unfold pathViaSet
  exact (Finset.mem_union).symm

/-- Soundness of the pairwise loop: every membership in the running graph
is an original membership or a hull membership. -/
theorem pairLoop_sound {g₀ : TGraph} {pm : List (Nat × Nat × Nat)} {root : Nat}
    (hwf : PMWf pm root)
    (hreach : ∀ m, m < g₀.bags.length → root ∈ ancChain pm m)
    (hconv : ∀ x y, adjacentB g₀ x y → pmAdj pm x y)
    (hadjv : ∀ x y, adjacentB g₀ x y → x < g₀.bags.length ∧ y < g₀.bags.length) :
    ∀ (L : List (Nat × Nat)) (g : TGraph),
      (∀ pr ∈ L, pr.1 < g₀.bags.length ∧ pr.2 < g₀.bags.length) →
      g.edges = g₀.edges →
      (∀ u n, u ∈ bagOf g n → u ∈ bagOf g₀ n ∨ n ∈ hullSet g₀ pm u) →
      ∀ g', L.foldlM (fun h pr => processPair h pr.1 pr.2) g = some g' →
        ∀ u n, u ∈ bagOf g' n → u ∈ bagOf g₀ n ∨ n ∈ hullSet g₀ pm u := by
  intro L
  induction L with
  | nil =>
    intro g _ _ hsound g' h
    simp only [List.foldlM_nil] at h
    cases h
    exact hsound
  | cons pr L' ih =>
    intro g hbound hedges hsound g' h
    rw [List.foldlM_cons] at h
    obtain ⟨g₁, h₁, h₂⟩ := Option.bind_eq_some.mp h
    obtain ⟨he₁, -, hinv₁⟩ := processPair_inv h₁
    have hpr := hbound pr (List.mem_cons_self _ _)
    have hsound₁ : ∀ u n, u ∈ bagOf g₁ n → u ∈ bagOf g₀ n ∨ n ∈ hullSet g₀ pm u := by
      intro u n hu
      rcases hinv₁ u n hu with hu' | ⟨hufirst, husecond, p, hp, hnp⟩
      · exact hsound u n hu'
      · -- both endpoints are hull members, the path stays in the hull
        have hfh : pr.2 ∈ hullSet g₀ pm u := by
          rcases hsound u pr.2 hufirst with h' | h'
          · exact holder_mem_hullSet (mem_holdersList.mpr ⟨hpr.2, h'⟩)
          · exact h'
        have hsh : pr.1 ∈ hullSet g₀ pm u := by
          rcases hsound u pr.1 husecond with h' | h'
          · exact holder_mem_hullSet (mem_holdersList.mpr ⟨hpr.1, h'⟩)
          · exact h'
        have hSne : holdersList g₀ u ≠ [] := by
          obtain ⟨x, hx, -⟩ := mem_hullSet.mp hfh
          exact List.ne_nil_of_mem hx
        have hSreach : ∀ s ∈ holdersList g₀ u, root ∈ ancChain pm s :=
          fun s hs => hreach s (mem_holdersList.mp hs).1
        obtain ⟨c, -, hc1, hc2⟩ := exists_lca hwf (holdersList g₀ u) hSne hSreach
        have hp₀ : findPath g₀ pr.2 pr.1 = some p := by
          rw [← findPath_congr hedges pr.2 pr.1]
          exact hp
        have hchar := findPath_pathViaSet hwf hreach hconv hadjv hpr.2 hp₀
        refine Or.inr (hull_convex hwf hSreach hc1 hc2
          (hreach pr.2 hpr.2) (hreach pr.1 hpr.1) hfh hsh ?_)
        exact (hchar n).mp hnp
    exact ih g₁ (fun q hq => hbound q (List.mem_cons_of_mem _ hq))
      ((processPair_inv h₁).1.trans hedges) hsound₁ g' h₂

/-- Membership in the pair list. -/
theorem mem_combinations2 {n i j : Nat} :
    (i, j) ∈ combinations2 n ↔ i < j ∧ j < n := by
  unfold combinations2
  rw [List.mem_flatMap]
  constructor
  · rintro ⟨a, ha, hmem⟩
    rw [List.mem_map] at hmem
    obtain ⟨b, hb, heq⟩ := hmem
    rw [List.mem_filter] at hb
    obtain ⟨hbr, hab⟩ := hb
    obtain ⟨rfl, rfl⟩ := Prod.mk.injEq a b i j ▸ heq
    exact ⟨by simpa using hab, List.mem_range.mp hbr⟩
  · rintro ⟨hij, hjn⟩
    exact ⟨i, List.mem_range.mpr (lt_trans hij hjn),
      List.mem_map.mpr ⟨j, List.mem_filter.mpr
        ⟨List.mem_range.mpr hjn, by simpa using hij⟩, rfl⟩⟩

/-- Completeness of the pairwise loop for an ordered holder pair: the
whole path between them ends up holding the vertex. -/
theorem pairwise_complete_lt {g₀ g' : TGraph} {pm : List (Nat × Nat × Nat)} {root : Nat}
    (hwf : PMWf pm root)
    (hreach : ∀ m, m < g₀.bags.length → root ∈ ancChain pm m)
    (hconv : ∀ x y, adjacentB g₀ x y → pmAdj pm x y)
    (hadjv : ∀ x y, adjacentB g₀ x y → x < g₀.bags.length ∧ y < g₀.bags.length)
    (hrun : fill_bags_along_paths g₀ = some g')
    (u x y : Nat) (hx : x ∈ holdersList g₀ u) (hy : y ∈ holdersList g₀ u)
    (hxy : x < y) :
    ∀ n ∈ pathViaSet pm y x, u ∈ bagOf g' n := by
  have hxb := mem_holdersList.mp hx
  have hyb := mem_holdersList.mp hy
  have hmem : (x, y) ∈ combinations2 g₀.bags.length :=
    mem_combinations2.mpr ⟨hxy, hyb.1⟩
  obtain ⟨l₁, l₂, hsplit⟩ := List.append_of_mem hmem
  unfold fill_bags_along_paths at hrun
  rw [hsplit, List.foldlM_append] at hrun
  obtain ⟨gA, hA, hrest⟩ := Option.bind_eq_some.mp hrun
  rw [List.foldlM_cons] at hrest
  obtain ⟨gB, hB, hC⟩ := Option.bind_eq_some.mp hrest
  have hAedges : gA.edges = g₀.edges := (pairLoop_edges l₁ g₀ gA hA).1
  have hmonoA : ∀ i, bagOf g₀ i ⊆ bagOf gA i :=
    foldlM_bagOf_mono (fun g a g'' ha => processPair_mono ha) l₁ g₀ gA hA
  have hux : u ∈ bagOf gA x := hmonoA x hxb.2
  have huy : u ∈ bagOf gA y := hmonoA y hyb.2
  have hIne : ¬ bagOf gA y ∩ bagOf gA x = ∅ := by
    intro hempty
    have hmemI : u ∈ bagOf gA y ∩ bagOf gA x := Finset.mem_inter.mpr ⟨huy, hux⟩
    rw [hempty] at hmemI
    exact absurd hmemI (Finset.not_mem_empty u)
  have hpath : ∃ p, findPath gA y x = some p := by
    simp only [processPair] at hB
    rw [if_neg hIne] at hB
    cases htg : pairInsertionTargets gA x y with
    | none => rw [htg] at hB; cases hB
    | some t =>
      unfold pairInsertionTargets at htg
      obtain ⟨p, hp, -⟩ := Option.map_eq_some'.mp htg
      exact ⟨p, hp⟩
  obtain ⟨p, hp⟩ := hpath
  have hcover := processPair_covers hp hB
  have hp₀ : findPath g₀ y x = some p := by
    rw [← findPath_congr hAedges]
    exact hp
  have hchar := findPath_pathViaSet hwf hreach hconv hadjv hyb.1 hp₀
  intro n hn
  have hnp : n ∈ p := (hchar n).mpr hn
  have huB : u ∈ bagOf gB n := hcover n hnp (Finset.mem_inter.mpr ⟨huy, hux⟩)
  exact foldlM_bagOf_mono (fun g a g'' ha => processPair_mono ha) l₂ gB g' hC n huB

/-- The pairwise filler's final bags: the original memberships plus
exactly the hull of each vertex. -/
theorem fill_bags_along_paths_char {g₀ g' : TGraph} {pm : List (Nat × Nat × Nat)}
    {root : Nat}
    (hwf : PMWf pm root)
    (hreach : ∀ m, m < g₀.bags.length → root ∈ ancChain pm m)
    (hconv : ∀ x y, adjacentB g₀ x y → pmAdj pm x y)
    (hadjv : ∀ x y, adjacentB g₀ x y → x < g₀.bags.length ∧ y < g₀.bags.length)
    (hrun : fill_bags_along_paths g₀ = some g') :
    ∀ u n, u ∈ bagOf g' n ↔ (u ∈ bagOf g₀ n ∨ n ∈ hullSet g₀ pm u) := by
  intro u n
  constructor
  · refine pairLoop_sound hwf hreach hconv hadjv (combinations2 g₀.bags.length) g₀
      ?_ rfl (fun u n hu => Or.inl hu) g' hrun u n
    rintro ⟨a, b⟩ hab
    rw [mem_combinations2] at hab
    exact ⟨lt_trans hab.1 hab.2, hab.2⟩
  · rintro (h | h)
    · exact foldlM_bagOf_mono (fun g a g'' ha => processPair_mono ha) _ g₀ g' hrun n h
    · rw [mem_hullSet] at h
      obtain ⟨x, hx, y, hy, hn⟩ := h
      have hrx := hreach x (mem_holdersList.mp hx).1
      have hry := hreach y (mem_holdersList.mp hy).1
      rcases lt_trichotomy x y with hlt | heq | hlt
      · refine pairwise_complete_lt hwf hreach hconv hadjv hrun u x y hx hy hlt n ?_
        rw [← pathViaSet_comm hwf hrx hry]
        exact hn
      · subst heq
        rw [mem_pathViaSet_self] at hn
        subst hn
        exact foldlM_bagOf_mono (fun g a g'' ha => processPair_mono ha) _ g₀ g' hrun n
          (mem_holdersList.mp hx).2
      · exact pairwise_complete_lt hwf hreach hconv hadjv hrun u y x hy hx hlt n hn

/-! ## The structural filler computes the same hull -/
/-- A clique-graph-map entry with at most one tree node changes nothing. -/
theorem fbucp_noop {g : TGraph} {pm : List (Nat × Nat × Nat)} {v : Nat}
    {s : List Nat} (h : ¬ 1 < s.length) :
    fill_bags_until_common_predecessor g pm v s = some g := by
  simp only [fill_bags_until_common_predecessor]
  rw [if_neg h]
  rfl

/-- The walking loop only ever adds `v`: lengths and other vertices'
memberships are untouched. -/
theorem fillLoop_frame (pm : List (Nat × Nat × Nat)) (v : Nat) :
    ∀ (fuel : Nat) (pending : List (Nat × Nat)) (g g' : TGraph)
      (pending' : List (Nat × Nat)),
      fillLoop pm v fuel pending g = some (g', pending') →
      g'.bags.length = g.bags.length ∧
        ∀ w, w ≠ v → ∀ n, (w ∈ bagOf g' n ↔ w ∈ bagOf g n) := by
  intro fuel
  induction fuel with
  | zero =>
    intro pending g g' pending' h
    rw [fillLoop] at h
    split at h
    · cases h
      exact ⟨rfl, fun w _ n => Iff.rfl⟩
    · cases h
  | succ fuel ih =>
    intro pending g g' pending' h
    rw [fillLoop] at h
    split at h
    · cases h
      exact ⟨rfl, fun w _ n => Iff.rfl⟩
    · split at h
      · cases h
        exact ⟨rfl, fun w _ n => Iff.rfl⟩
      · rename_i current rest hpop
        split at h
        · cases h
        · rename_i g₁ hg₁
          obtain ⟨hlen₁, hbag₁, hoth₁⟩ := extendBag_bagOf hg₁
          have hstep : ∀ w, w ≠ v → ∀ n, (w ∈ bagOf g₁ n ↔ w ∈ bagOf g n) := by
            intro w hw n
            by_cases hn : n = current.2
            · subst hn
              rw [hbag₁]
              simp [hw]
            · rw [hoth₁ n hn]
          split at h
          · obtain ⟨hlen₂, hframe₂⟩ := ih _ _ _ _ h
            exact ⟨hlen₂.trans hlen₁,
              fun w hw n => (hframe₂ w hw n).trans (hstep w hw n)⟩
          · obtain ⟨hlen₂, hframe₂⟩ := ih _ _ _ _ h
            exact ⟨hlen₂.trans hlen₁,
              fun w hw n => (hframe₂ w hw n).trans (hstep w hw n)⟩

/-- One structural per-vertex fill only ever adds its vertex. -/
theorem fbucp_frame {g g' : TGraph} {pm : List (Nat × Nat × Nat)} {v : Nat}
    {s : List Nat}
    (h : fill_bags_until_common_predecessor g pm v s = some g') :
    g'.bags.length = g.bags.length ∧
      ∀ w, w ≠ v → ∀ n, (w ∈ bagOf g' n ↔ w ∈ bagOf g n) := by
  simp only [fill_bags_until_common_predecessor] at h
  split at h
  · cases h
  · rename_i opt g₁ pending₁ hloop
    obtain ⟨hlen₁, hframe₁⟩ := fillLoop_frame pm v _ _ _ _ _ hloop
    split at h
    · cases h
      exact ⟨hlen₁, hframe₁⟩
    · obtain ⟨hlen₂, hbag₂, hoth₂⟩ := extendBag_bagOf h
      refine ⟨hlen₂.trans hlen₁, ?_⟩
      rename_i common_predecessor tail
      intro w hw n
      refine Iff.trans ?_ (hframe₁ w hw n)
      by_cases hn : n = common_predecessor.2
      · subst hn
        rw [hbag₂]
        simp [hw]
      · rw [hoth₂ n hn]

/-- The per-vertex characterisation of `fill_bags_until_common_predecessor`
(the reusable core behind the walk): there is a deepest common ancestor
`c` of the entry's nodes, and `v` is added to exactly the chains of the
entry's nodes cut at `c`, minus the entry's nodes themselves. -/
theorem fbucp_char {pm : List (Nat × Nat × Nat)} {root v : Nat} {S : List Nat}
    {g g' : TGraph}
    (hwf : PMWf pm root)
    (hreach : ∀ s ∈ S, root ∈ ancChain pm s)
    (hlen : 1 < S.length)
    (hS : ∀ s ∈ S, v ∈ bagOf g s)
    (hrun : fill_bags_until_common_predecessor g pm v S = some g') :
    ∃ c, (∀ s ∈ S, c ∈ ancChain pm s) ∧
      (∀ d, (∀ s ∈ S, d ∈ ancChain pm s) → d ∈ ancChain pm c) ∧
      ∀ n, v ∈ bagOf g' n ↔ (v ∈ bagOf g n ∨
        n ∈ (S.toFinset.biUnion fun s => chainTo pm s c) \ S.toFinset) := by
  simp only [fill_bags_until_common_predecessor] at hrun
  rw [if_pos hlen] at hrun
  set pending₀ := S.foldl (fun acc w =>
      match pm.lookup w with
      | some (_, index) => pendingInsert (index + 1, w) acc
      | none => pendingInsert (0, w) acc) [] with hpend₀
  have hmem₀ : ∀ e, e ∈ pending₀ ↔ ∃ w ∈ S, e = (wlv pm w, w) := by
    intro e
    rw [hpend₀, initPending_mem]
    simp
  have hinv₀ : WalkInv pm S pending₀ := by
    refine ⟨?_, ?_, ?_, ?_, ?_⟩
    · rw [hpend₀]
      exact initPending_nodup pm S [] List.nodup_nil
    · intro e he
      obtain ⟨w, -, rfl⟩ := (hmem₀ e).mp he
      rfl
    · intro e he
      obtain ⟨w, hw, rfl⟩ := (hmem₀ e).mp he
      exact ⟨w, hw, ancChain_self pm w⟩
    · intro s hs
      exact ⟨(wlv pm s, s), (hmem₀ _).mpr ⟨s, hs, rfl⟩, ancChain_self pm s⟩
    · intro d hd e he
      obtain ⟨w, hw, rfl⟩ := (hmem₀ e).mp he
      exact hd w hw
  cases hloop : fillLoop pm v (pendingMeasure pending₀ + 1) pending₀ g with
  | none =>
    rw [hloop] at hrun
    exact Option.noConfusion hrun
  | some gp =>
    obtain ⟨g₁, pending₁⟩ := gp
    rw [hloop] at hrun
    obtain ⟨hlen₁, hinv₁, hsub₁, hiff₁⟩ :=
      fillLoop_spec v hwf hreach _ pending₀ g g₁ pending₁ hinv₀ hloop
    have hS0 : ∃ s, s ∈ S := by
      cases S with
      | nil => simp at hlen
      | cons a t => exact ⟨a, List.mem_cons_self a t⟩
    obtain ⟨s₀, hs₀⟩ := hS0
    obtain ⟨e_c, he_c, hcs₀⟩ := hinv₁.rep s₀ hs₀
    have hone : pending₁ = [e_c] := by
      cases pending₁ with
      | nil => cases he_c
      | cons a t =>
        cases t with
        | nil =>
          rw [List.mem_singleton] at he_c
          rw [he_c]
        | cons b t' => simp at hlen₁
    subst hone
    change extendBag g₁ e_c.2 {v} = some g' at hrun
    obtain ⟨-, hbagc, hothc⟩ := extendBag_bagOf hrun
    have hcommon : ∀ s ∈ S, e_c.2 ∈ ancChain pm s := by
      intro s hs
      obtain ⟨e, he, hmem⟩ := hinv₁.rep s hs
      rw [List.mem_singleton] at he
      rw [← he]
      exact hmem
    have hA : ∀ n, n ∈ ancU pm pending₀ ↔ ∃ s ∈ S, n ∈ ancChain pm s := by
      intro n
      rw [mem_ancU]
      constructor
      · rintro ⟨e, he, hmem⟩
        obtain ⟨w, hw, rfl⟩ := (hmem₀ e).mp he
        exact ⟨w, hw, hmem⟩
      · rintro ⟨s, hs, hmem⟩
        exact ⟨(wlv pm s, s), (hmem₀ _).mpr ⟨s, hs, rfl⟩, hmem⟩
    have hC : ∀ n, n ∈ ancU pm [e_c] ↔ n ∈ ancChain pm e_c.2 := by
      intro n
      rw [mem_ancU]
      constructor
      · rintro ⟨e, he, hmem⟩
        rw [List.mem_singleton] at he
        rw [← he]
        exact hmem
      · intro hmem
        exact ⟨e_c, List.mem_singleton_self _, hmem⟩
    refine ⟨e_c.2, hcommon, ?_, ?_⟩
    · intro d hd
      exact hinv₁.common d hd e_c (List.mem_singleton_self _)
    · intro n
      have hg'n : v ∈ bagOf g' n ↔ (v ∈ bagOf g₁ n ∨ n = e_c.2) := by
        by_cases hnc : n = e_c.2
        · subst hnc
          rw [hbagc]
          simp
        · rw [hothc n hnc]
          simp [hnc]
      rw [hg'n, hiff₁ n]
      constructor
      · rintro ((hv | h₀₁) | rfl)
        · exact Or.inl hv
        · obtain ⟨h₀, h₁⟩ := Finset.mem_sdiff.mp h₀₁
          by_cases hnS : n ∈ S
          · exact Or.inl (hS n hnS)
          · obtain ⟨s, hs, hns⟩ := (hA n).mp h₀
            refine Or.inr (Finset.mem_sdiff.mpr ⟨Finset.mem_biUnion.mpr
              ⟨s, List.mem_toFinset.mpr hs,
                mem_chainTo.mpr ⟨hns, fun hmemc => absurd ((hC n).mpr hmemc) h₁⟩⟩,
              fun hmem => hnS (List.mem_toFinset.mp hmem)⟩)
        · by_cases hnS : e_c.2 ∈ S
          · exact Or.inl (hS _ hnS)
          · exact Or.inr (Finset.mem_sdiff.mpr ⟨Finset.mem_biUnion.mpr
              ⟨s₀, List.mem_toFinset.mpr hs₀,
                mem_chainTo.mpr ⟨hcommon s₀ hs₀, fun _ => rfl⟩⟩,
              fun hmem => hnS (List.mem_toFinset.mp hmem)⟩)
      · rintro (hv | hmem)
        · exact Or.inl (Or.inl hv)
        · obtain ⟨hbi, hnS⟩ := Finset.mem_sdiff.mp hmem
          obtain ⟨s, hsF, hns⟩ := Finset.mem_biUnion.mp hbi
          rw [mem_chainTo] at hns
          by_cases hnc : n = e_c.2
          · exact Or.inr hnc
          · refine Or.inl (Or.inr (Finset.mem_sdiff.mpr
              ⟨(hA n).mpr ⟨s, List.mem_toFinset.mp hsF, hns.1⟩, fun hmem₂ => ?_⟩))
            exact hnc (hns.2 ((hC n).mp hmem₂))

/-- Processing one exact clique-graph-map entry turns the vertex's
original memberships into original-plus-hull. -/
theorem fbucp_entry_char {g₀ g g' : TGraph} {pm : List (Nat × Nat × Nat)}
    {root v : Nat} {S : List Nat}
    (hwf : PMWf pm root)
    (hreach : ∀ m, m < g₀.bags.length → root ∈ ancChain pm m)
    (hSnodup : S.Nodup)
    (hSmem : ∀ s, s ∈ S ↔ (s < g₀.bags.length ∧ v ∈ bagOf g₀ s))
    (hvstate : ∀ n, v ∈ bagOf g n ↔ v ∈ bagOf g₀ n)
    (hrun : fill_bags_until_common_predecessor g pm v S = some g') :
    ∀ n, v ∈ bagOf g' n ↔ (v ∈ bagOf g₀ n ∨ n ∈ hullSet g₀ pm v) := by
  have hSh : ∀ s, s ∈ S ↔ s ∈ holdersList g₀ v :=
    fun s => (hSmem s).trans mem_holdersList.symm
  have hSfin : S.toFinset = (holdersList g₀ v).toFinset := by
    ext s
    rw [List.mem_toFinset, List.mem_toFinset]
    exact hSh s
  have hnodupH : (holdersList g₀ v).Nodup := (List.nodup_range _).filter _
  have hSlen : S.length = (holdersList g₀ v).length := by
    rw [← List.toFinset_card_of_nodup hSnodup, ← List.toFinset_card_of_nodup hnodupH,
      hSfin]
  by_cases hlen : 1 < S.length
  · have hS' : ∀ s ∈ S, v ∈ bagOf g s :=
      fun s hs => (hvstate s).mpr ((hSmem s).mp hs).2
    have hreachS : ∀ s ∈ S, root ∈ ancChain pm s :=
      fun s hs => hreach s ((hSmem s).mp hs).1
    obtain ⟨c, hc1, hc2, hfin⟩ := fbucp_char hwf hreachS hlen hS' hrun
    have hreachH : ∀ s ∈ holdersList g₀ v, root ∈ ancChain pm s :=
      fun s hs => hreach s (mem_holdersList.mp hs).1
    have hc1h : ∀ s ∈ holdersList g₀ v, c ∈ ancChain pm s :=
      fun s hs => hc1 s ((hSh s).mpr hs)
    have hc2h : ∀ d, (∀ s ∈ holdersList g₀ v, d ∈ ancChain pm s) →
        d ∈ ancChain pm c :=
      fun d hd => hc2 d (fun s hs => hd s ((hSh s).mp hs))
    have hhull : hullSet g₀ pm v =
        S.toFinset.biUnion fun s => chainTo pm s c := by
      rw [hullSet_eq hwf hreachH hc1h hc2h, hSfin]
    intro n
    rw [hfin n]
    constructor
    · rintro (hv | hmem)
      · exact Or.inl ((hvstate n).mp hv)
      · obtain ⟨hbi, -⟩ := Finset.mem_sdiff.mp hmem
        refine Or.inr ?_
        rw [hhull]
        exact hbi
    · rintro (hv | hmem)
      · exact Or.inl ((hvstate n).mpr hv)
      · rw [hhull] at hmem
        by_cases hnS : n ∈ S.toFinset
        · exact Or.inl ((hvstate n).mpr ((hSmem n).mp (List.mem_toFinset.mp hnS)).2)
        · exact Or.inr (Finset.mem_sdiff.mpr ⟨hmem, hnS⟩)
  · rw [fbucp_noop hlen] at hrun
    obtain rfl := Option.some.inj hrun
    intro n
    constructor
    · intro hv
      exact Or.inl ((hvstate n).mp hv)
    · rintro (hv | hmem)
      · exact (hvstate n).mpr hv
      · obtain ⟨x, hx, y, hy, hn⟩ := mem_hullSet.mp hmem
        have hlenH : (holdersList g₀ v).length ≤ 1 := by omega
        cases hhl : holdersList g₀ v with
        | nil =>
          rw [hhl] at hx
          cases hx
        | cons a rest =>
          have hrest : rest = [] := by
            rw [hhl] at hlenH
            simp only [List.length_cons] at hlenH
            exact List.length_eq_zero.mp (by omega)
          subst hrest
          rw [hhl, List.mem_singleton] at hx hy
          rw [hx, hy, mem_pathViaSet_self] at hn
          rw [hn]
          have hma := List.mem_singleton_self a
          rw [← hhl] at hma
          exact (hvstate a).mpr (mem_holdersList.mp hma).2

/-- Folding the per-vertex fills over exact entries yields
original-plus-hull for every vertex. -/
theorem structLoop_char {g₀ : TGraph} {pm : List (Nat × Nat × Nat)} {root : Nat}
    (hwf : PMWf pm root)
    (hreach : ∀ m, m < g₀.bags.length → root ∈ ancChain pm m) :
    ∀ (entries : List (Nat × List Nat)) (g : TGraph),
      (entries.map Prod.fst).Nodup →
      (∀ e ∈ entries, e.2.Nodup ∧
        ∀ s, s ∈ e.2 ↔ (s < g₀.bags.length ∧ e.1 ∈ bagOf g₀ s)) →
      (∀ w n, w ∉ entries.map Prod.fst →
        (w ∈ bagOf g n ↔ (w ∈ bagOf g₀ n ∨ n ∈ hullSet g₀ pm w))) →
      (∀ w n, w ∈ entries.map Prod.fst → (w ∈ bagOf g n ↔ w ∈ bagOf g₀ n)) →
      ∀ g', entries.foldlM
          (fun h e => fill_bags_until_common_predecessor h pm e.1 e.2) g = some g' →
        ∀ w n, w ∈ bagOf g' n ↔ (w ∈ bagOf g₀ n ∨ n ∈ hullSet g₀ pm w) := by
  intro entries
  induction entries with
  | nil =>
    intro g _ _ hdone _ g' h
    simp only [List.foldlM_nil] at h
    cases h
    exact fun w n => hdone w n (by simp)
  | cons e rest ih =>
    intro g hnodup hexact hdone hpend g' h
    rw [List.foldlM_cons] at h
    obtain ⟨g₁, h₁, h₂⟩ := Option.bind_eq_some.mp h
    rw [List.map_cons] at hnodup
    have hekey : e.1 ∉ rest.map Prod.fst := (List.nodup_cons.mp hnodup).1
    obtain ⟨heN, heS⟩ := hexact e (List.mem_cons_self _ _)
    have hvstate : ∀ n, e.1 ∈ bagOf g n ↔ e.1 ∈ bagOf g₀ n :=
      fun n => hpend e.1 n (by rw [List.map_cons]; exact List.mem_cons_self _ _)
    have hentry := fbucp_entry_char hwf hreach heN heS hvstate h₁
    have hframe := (fbucp_frame h₁).2
    refine ih g₁ (List.nodup_cons.mp hnodup).2
      (fun e' he' => hexact e' (List.mem_cons_of_mem _ he')) ?_ ?_ g' h₂
    · intro w n hw
      by_cases hwe : w = e.1
      · subst hwe
        exact hentry n
      · rw [hframe w hwe n]
        refine hdone w n ?_
        rw [List.map_cons]
        intro hmem
        rcases List.mem_cons.mp hmem with h' | h'
        · exact hwe h'
        · exact hw h'
    · intro w n hw
      have hwe : w ≠ e.1 := fun hEq => hekey (hEq ▸ hw)
      rw [hframe w hwe n]
      refine hpend w n ?_
      rw [List.map_cons]
      exact List.mem_cons_of_mem _ hw

/-- The structural filler's final bags over an exact clique-graph map:
original memberships plus exactly the hull of each vertex, along with the
facts about the predecessor map it constructed. -/
theorem fill_bags_along_paths_using_structure_char
    {g₀ g₂ : TGraph} {pm : List (Nat × Nat × Nat)} {cgm : List (Nat × List Nat)}
    (htree : IsTreeGraph g₀) (hcgm : ExactCGM g₀ cgm)
    (hrun : fill_bags_along_paths_using_structure g₀ cgm = some (g₂, pm)) :
    ∃ root, PMWf pm root ∧
      (∀ m, m < g₀.bags.length → root ∈ ancChain pm m) ∧
      (∀ a b, adjacentB g₀ a b → pmAdj pm a b) ∧
      ∀ w n, w ∈ bagOf g₂ n ↔ (w ∈ bagOf g₀ n ∨ n ∈ hullSet g₀ pm w) := by
  unfold fill_bags_along_paths_using_structure at hrun
  split at hrun
  · cases hrun
  · rename_i root hroot
    split at hrun
    · cases hrun
    · rename_i pm₀ hsetup
      split at hrun
      · cases hrun
      · rename_i g' hfold
        simp only [Option.some.injEq, Prod.mk.injEq] at hrun
        obtain ⟨rfl, rfl⟩ := hrun
        have hrootlt := rootOf_lt hroot
        obtain ⟨hwf, hreach, hconv⟩ := setup_tree_facts htree hrootlt hsetup
        obtain ⟨hkeysN, hentries, hcover⟩ := hcgm
        refine ⟨root, hwf, hreach, hconv, ?_⟩
        refine structLoop_char hwf hreach cgm g₀ hkeysN ?_ ?_
          (fun w n _ => Iff.rfl) g' hfold
        · intro e he
          obtain ⟨hN, hin, hout⟩ := hentries e he
          exact ⟨hN, fun s => ⟨fun hs => hin s hs, fun hp => hout s hp.1 hp.2⟩⟩
        · intro w n hw
          constructor
          · exact Or.inl
          · rintro (h | h)
            · exact h
            · obtain ⟨x, hx, -, -, -⟩ := mem_hullSet.mp h
              obtain ⟨hxlt, hxbag⟩ := mem_holdersList.mp hx
              exact absurd (hcover x hxlt w hxbag) hw

/-- C1: on a tree with an exact clique-graph map, the pairwise filler
(`fill_bags_along_paths`) and the structural LCA filler
(`fill_bags_along_paths_using_structure`), run on the same unfilled tree,
produce the same resulting bag contents at every node: both end up with
the original memberships plus, for each vertex, exactly the union of the
tree paths between the bags originally holding it. -/
theorem fillers_equivalent (g g₁ g₂ : TGraph) (cgm : List (Nat × List Nat))
    (pm : List (Nat × Nat × Nat))
    (htree : IsTreeGraph g) (hcgm : ExactCGM g cgm)
    (h₁ : fill_bags_along_paths g = some g₁)
    (h₂ : fill_bags_along_paths_using_structure g cgm = some (g₂, pm)) :
    ∀ n, bagOf g₁ n = bagOf g₂ n := by
  obtain ⟨root, hwf, hreach, hconv, hchar₂⟩ :=
    fill_bags_along_paths_using_structure_char htree hcgm h₂
  have hadjv : ∀ a b, adjacentB g a b → a < g.bags.length ∧ b < g.bags.length := by
    obtain ⟨-, -, hvalid, -⟩ := htree
    rintro a b (h | h)
    · exact ⟨(hvalid _ h).1, (hvalid _ h).2.1⟩
    · exact ⟨(hvalid _ h).2.1, (hvalid _ h).1⟩
  have hchar₁ := fill_bags_along_paths_char hwf hreach hconv hadjv h₁
  intro n
  ext u
  rw [hchar₁ u n, hchar₂ u n]

/-- Witness for C1: the three-node path with vertex `5` in the two leaf
bags; both fillers produce the fully filled path. -/
theorem fillers_equivalent_witness :
    bagOf pathThreeFilled 1 = bagOf pathThreeFilled 1 :=
  fillers_equivalent pathThree pathThreeFilled pathThreeFilled
    (cliqueGraphMapOf pathThree [5]) [(2, 1, 0), (0, 1, 0)]
    (by decide) (by decide) (by rfl) (by rfl) 1
